import Mathlib

/-!
Verification of the enrichment orchestration engine of the
PM-SponsorshipSearch scraper backend.

The development shallowly embeds the Python source:

* `scrapers/models.py` — `TeamRow.apply_enrichment`, `EnrichmentResult`;
* `scrapers/enrichers/base.py` — `BaseEnricher.enrich`,
  `BaseEnricher._enrich_team_with_retry`, `EnricherConfig`;
* `main.py` — `_compute_enrichment_diff`, `EnrichmentTaskManager`,
  `_run_enrichment_task`.

Wall-clock durations and ISO timestamps are abstracted as opaque values
(the code only ever stores and displays them); `asyncio` suspension is
embedded as explicit sequential state passing, with per-item concurrency
reduced to its observable per-item outcomes (each item's result depends
only on that item, which is exactly what `asyncio.gather` over
independent coroutines delivers).
-/

namespace SponsorshipSearch

/-! ## Python values

Team records cross the diff engine as JSON-like dictionaries
(`Dict[str, Any]`).  `PyVal` models the values that occur in them, and
`pyEq` models Python `==` on those values (including the `bool`/`int`
cross-type equality of Python, and elementwise list equality). -/

inductive PyVal where
  | none
  | str (s : String)
  | int (n : Int)
  | bool (b : Bool)
  | list (l : List PyVal)
  deriving Repr

/-- Structural (Lean-level) decidable equality for `PyVal`; needed only
so that concrete diff outputs can be compared by `decide`. -/
def PyVal.decEq : (a b : PyVal) → Decidable (a = b)
  | .none, .none => .isTrue rfl
  | .none, .str _ => .isFalse (fun h => nomatch h)
  | .none, .int _ => .isFalse (fun h => nomatch h)
  | .none, .bool _ => .isFalse (fun h => nomatch h)
  | .none, .list _ => .isFalse (fun h => nomatch h)
  | .str _, .none => .isFalse (fun h => nomatch h)
  | .str a, .str b =>
      if h : a = b then .isTrue (by rw [h]) else .isFalse (by intro hc; cases hc; exact h rfl)
  | .str _, .int _ => .isFalse (fun h => nomatch h)
  | .str _, .bool _ => .isFalse (fun h => nomatch h)
  | .str _, .list _ => .isFalse (fun h => nomatch h)
  | .int _, .none => .isFalse (fun h => nomatch h)
  | .int _, .str _ => .isFalse (fun h => nomatch h)
  | .int a, .int b =>
      if h : a = b then .isTrue (by rw [h]) else .isFalse (by intro hc; cases hc; exact h rfl)
  | .int _, .bool _ => .isFalse (fun h => nomatch h)
  | .int _, .list _ => .isFalse (fun h => nomatch h)
  | .bool _, .none => .isFalse (fun h => nomatch h)
  | .bool _, .str _ => .isFalse (fun h => nomatch h)
  | .bool _, .int _ => .isFalse (fun h => nomatch h)
  | .bool a, .bool b =>
      if h : a = b then .isTrue (by rw [h]) else .isFalse (by intro hc; cases hc; exact h rfl)
  | .bool _, .list _ => .isFalse (fun h => nomatch h)
  | .list _, .none => .isFalse (fun h => nomatch h)
  | .list _, .str _ => .isFalse (fun h => nomatch h)
  | .list _, .int _ => .isFalse (fun h => nomatch h)
  | .list _, .bool _ => .isFalse (fun h => nomatch h)
  | .list a, .list b =>
      match decEqList a b with
      | .isTrue h => .isTrue (by rw [h])
      | .isFalse h => .isFalse (by intro hc; cases hc; exact h rfl)
where
  decEqList : (a b : List PyVal) → Decidable (a = b)
  | [], [] => .isTrue rfl
  | [], _ :: _ => .isFalse (fun h => nomatch h)
  | _ :: _, [] => .isFalse (fun h => nomatch h)
  | a :: as_, b :: bs =>
      match PyVal.decEq a b, decEqList as_ bs with
      | .isTrue h1, .isTrue h2 => .isTrue (by rw [h1, h2])
      | .isFalse h1, _ => .isFalse (by intro hc; injection hc with hh _; exact h1 hh)
      | _, .isFalse h2 => .isFalse (by intro hc; injection hc with _ ht; exact h2 ht)

instance : DecidableEq PyVal := PyVal.decEq

/-- Python `==` on embedded values. -/
def pyEq : PyVal → PyVal → Bool
  | .none, .none => true
  | .str a, .str b => a == b
  | .int a, .int b => a == b
  | .bool a, .bool b => a == b
  | .bool a, .int b => (if a then (1 : Int) else 0) == b
  | .int a, .bool b => a == (if b then (1 : Int) else 0)
  | .list a, .list b => pyEqList a b
  | _, _ => false
where
  /-- Python `==` on lists: same length, elementwise equal. -/
  pyEqList : List PyVal → List PyVal → Bool
  | [], [] => true
  | a :: as_, b :: bs => pyEq a b && pyEqList as_ bs
  | _, _ => false

/-- Python `v is None`. -/
def PyVal.isNoneV : PyVal → Bool
  | .none => true
  | _ => false

/-- A team record as seen by the diff engine: an ordered field map
(Python `dict` iteration order). -/
abbrev TeamDict : Type := List (String × PyVal)

/-- `d.get(k)` on a Python dict (first binding wins; real dicts have
unique keys). -/
def dictGet (k : String) : TeamDict → Option PyVal
  | [] => Option.none
  | (k', v) :: rest => if k' = k then some v else dictGet k rest

/-- Lookup of a team dict in the before-snapshot (`Dict[str, Dict]`). -/
def snapGet (k : String) : List (String × TeamDict) → Option TeamDict
  | [] => Option.none
  | (k', v) :: rest => if k' = k then some v else snapGet k rest

/-! ## Diff engine (`main.py`, `_compute_enrichment_diff`) -/

/-- One field change, `main.py` dataclass `EnrichmentFieldDiff` (the
loop builds the same shape as a dict literal). -/
structure EnrichmentFieldDiff where
  field : String
  old_value : PyVal
  new_value : PyVal
  change_type : String
  deriving Repr, DecidableEq

/-- All changes to one team, `main.py` dataclass `EnrichmentTeamDiff`.
`team_name` is whatever `team_dict.get("name", "Unknown")` returned. -/
structure EnrichmentTeamDiff where
  team_name : PyVal
  changes : List EnrichmentFieldDiff := []
  fields_added : Nat := 0
  fields_modified : Nat := 0
  deriving Repr, DecidableEq

/-- Aggregate diff, `main.py` dataclass `EnrichmentDiff`. -/
structure EnrichmentDiff where
  teams_changed : Nat := 0
  total_fields_added : Nat := 0
  total_fields_modified : Nat := 0
  teams : List EnrichmentTeamDiff := []
  deriving Repr, DecidableEq

/-- The metadata fields the source ignores in the diff:
`ignore_fields = \x7b"enrichments_applied", "last_enriched"\x7d`. -/
def ignore_fields : List String := ["enrichments_applied", "last_enriched"]

/-- The change-classification cascade of `_compute_enrichment_diff`
(lines 1113–1132), transcribed check for check.  `Option.none` stands
for the `continue` branches (no change reported). -/
def classifyChange (old_value new_value : PyVal) : Option String :=
  if old_value.isNoneV && new_value.isNoneV then Option.none
  else if pyEq old_value (.list []) && pyEq new_value (.list []) then Option.none
  else if pyEq old_value new_value then Option.none
  else if old_value.isNoneV || pyEq old_value (.list []) || pyEq old_value (.str "") then
    if !new_value.isNoneV && !pyEq new_value (.list []) && !pyEq new_value (.str "") then
      some "added"
    else Option.none
  else if new_value.isNoneV || pyEq new_value (.list []) || pyEq new_value (.str "") then
    some "removed"
  else some "modified"

/-- `format_value` of `_compute_enrichment_diff`: display truncation of
long lists (> 3 elements → first 3 plus a `"...+N more"` marker) and
long strings (> 100 characters → first 100 plus `"..."`). -/
def format_value : PyVal → PyVal
  | .none => .none
  | .list v =>
      if v.length > 3 then
        .list (v.take 3 ++ [.str ("...+" ++ toString (v.length - 3) ++ " more")])
      else .list v
  | .str s => if s.length > 100 then .str (s.take 100 ++ "...") else .str s
  | v => v

/-- The change record an after-dict entry gives rise to before display
formatting: skip ignored fields, read the old value, classify.  Used to
characterise the loop below and to separate classification from display
truncation. -/
def rawChange (before : TeamDict) (f : String) (new_value : PyVal) :
    Option EnrichmentFieldDiff :=
  if f ∈ ignore_fields then Option.none
  else
    let old_value := (dictGet f before).getD .none
    (classifyChange old_value new_value).map
      (fun ct => { field := f, old_value := old_value, new_value := new_value,
                   change_type := ct })

/-- All raw (untruncated) changes of one team. -/
def rawChanges (before team_dict : TeamDict) : List EnrichmentFieldDiff :=
  team_dict.filterMap (fun p => rawChange before p.1 p.2)

/-- Display formatting applied to a change record; the classification
field is untouched. -/
def formatChange (c : EnrichmentFieldDiff) : EnrichmentFieldDiff :=
  { c with old_value := format_value c.old_value,
           new_value := format_value c.new_value }

/-- One iteration of the inner field loop of `_compute_enrichment_diff`:
skip ignored fields, read the old value (`before.get(field)`, missing =
`None`), classify, bump the team counters, append the formatted change
record. -/
def diffFieldStep (before : TeamDict) (td : EnrichmentTeamDiff)
    (entry : String × PyVal) : EnrichmentTeamDiff :=
  let f := entry.1
  let new_value := entry.2
  if f ∈ ignore_fields then td
  else
    let old_value := (dictGet f before).getD .none
    match classifyChange old_value new_value with
    | Option.none => td
    | some change_type =>
        let td :=
          if change_type = "added" then { td with fields_added := td.fields_added + 1 }
          else if change_type = "modified" then
            { td with fields_modified := td.fields_modified + 1 }
          else td
        { td with
            changes := td.changes ++
              [{ field := f, old_value := format_value old_value,
                 new_value := format_value new_value, change_type := change_type }] }

/-- The per-team part of `_compute_enrichment_diff`: fold the field loop
over the after-dict. -/
def diffTeam (team_name : PyVal) (before : TeamDict) (team_dict : TeamDict) :
    EnrichmentTeamDiff :=
  team_dict.foldl (diffFieldStep before) { team_name := team_name }

/-- Descending-by-change-count comparison used for the final
`diff.teams.sort(key=..., reverse=True)` (Python's sort is stable). -/
def moreChanges (a b : EnrichmentTeamDiff) : Bool :=
  b.changes.length ≤ a.changes.length

/-- One iteration of the outer team loop of `_compute_enrichment_diff`:
look up the before-state by name (missing → empty dict), compute the
team diff, and fold it into the aggregates unless it has no changes. -/
def diffTeamStep (before_snapshot : List (String × TeamDict))
    (acc : EnrichmentDiff) (team_dict : TeamDict) : EnrichmentDiff :=
  let team_name := (dictGet "name" team_dict).getD (.str "Unknown")
  let before :=
    (match team_name with
     | .str s => snapGet s before_snapshot
     | _ => Option.none).getD []
  let team_diff := diffTeam team_name before team_dict
  if team_diff.changes.isEmpty then acc
  else
    { acc with
        teams := acc.teams ++ [team_diff],
        teams_changed := acc.teams_changed + 1,
        total_fields_added := acc.total_fields_added + team_diff.fields_added,
        total_fields_modified :=
          acc.total_fields_modified + team_diff.fields_modified }

/-- `_compute_enrichment_diff` (`main.py` lines 1091–1163). -/
def compute_enrichment_diff (before_snapshot : List (String × TeamDict))
    (after_data : List TeamDict) : EnrichmentDiff :=
  let d : EnrichmentDiff :=
    after_data.foldl (diffTeamStep before_snapshot) ({} : EnrichmentDiff)
  { d with teams := d.teams.mergeSort moreChanges }

/-! ## Team records (`scrapers/models.py`)

Only the fields the shared driver itself touches are modelled
concretely; the enricher-owned data fields are opaque to the driver
(`_enrich_team` mutates them behind the `changed : bool` signal). -/

structure TeamRow where
  name : String
  enrichments_applied : Option (List String) := Option.none
  last_enriched : Option String := Option.none
  deriving Repr, DecidableEq

/-- `TeamRow.apply_enrichment`: initialise the applied list if `None`,
append the enricher id if not already present (dedup), stamp
`last_enriched` (`now` abstracts `datetime.now().isoformat()`). -/
def TeamRow.apply_enrichment (t : TeamRow) (enricher_name : String) (now : String) : TeamRow :=
  let applied := t.enrichments_applied.getD []
  let applied := if enricher_name ∈ applied then applied else applied ++ [enricher_name]
  { t with enrichments_applied := some applied, last_enriched := some now }

/-- `EnrichmentResult` (`scrapers/models.py`); `duration_ms` is
wall-clock and abstracted to `0`, `timestamp` is the abstract start
time.  The enriched `teams` are mutated in place in the source, so the
result value itself does not carry them. -/
structure EnrichmentResult where
  success : Bool
  enricher_name : String
  teams_processed : Nat
  teams_enriched : Nat
  duration_ms : Nat := 0
  timestamp : String := ""
  error : Option String := Option.none
  deriving Repr, DecidableEq

/-! ## Enricher configuration and driver (`scrapers/enrichers/base.py`) -/

/-- `EnricherConfig` with its source defaults.  `api_keys` is unused by
the driver logic and omitted. -/
structure EnricherConfig where
  max_concurrent_requests : Nat := 5
  request_delay_ms : Nat := 100
  max_retries : Nat := 3
  retry_delay_ms : Nat := 1000
  request_timeout_s : Nat := 30
  batch_size : Nat := 50
  deriving Repr, DecidableEq

/-- A concrete enricher as the driver sees it: metadata plus the
overridable hooks.  `enrich_team t n` is the observable outcome of the
`n`-th attempt (0-based) of `_enrich_team(t)` — `.ok changed` or a
raised exception `.error msg`; indexing by attempt captures stateful
hooks whose behaviour differs between retries.  `now`/`timestamp`
abstract the wall-clock reads. -/
structure Enricher where
  name : String := "Base Enricher"
  enricher_id : String
  is_available : Bool := true
  enrich_team : TeamRow → Nat → Except String Bool
  pre_enrich : List TeamRow → Except String Unit := fun _ => .ok ()
  post_enrich : List TeamRow → Except String Unit := fun _ => .ok ()
  now : String := ""
  timestamp : String := ""

/-- The retry loop of `_enrich_team_with_retry` starting at attempt
`attempt`: try the hook; on exception re-raise if this was the last
allowed attempt, otherwise sleep `retry_delay_ms / 1000 * (attempt+1)`
seconds and try again; `max_retries = 0` makes the loop body never run
and returns `False`.  The second component records the backoff sleeps
(in milliseconds) in chronological order. -/
def enrich_team_with_retry_from (e : Enricher) (cfg : EnricherConfig) (t : TeamRow) :
    Nat → Except String Bool × List Nat
  | attempt =>
    if attempt < cfg.max_retries then
      match e.enrich_team t attempt with
      | .ok b => (.ok b, [])
      | .error err =>
          if attempt = cfg.max_retries - 1 then (.error err, [])
          else
            let r := enrich_team_with_retry_from e cfg t (attempt + 1)
            (r.1, cfg.retry_delay_ms * (attempt + 1) :: r.2)
    else (.ok false, [])
  termination_by attempt => cfg.max_retries - attempt
  decreasing_by omega

/-- `_enrich_team_with_retry` (base.py lines 184–196). -/
def enrich_team_with_retry (e : Enricher) (cfg : EnricherConfig) (t : TeamRow) :
    Except String Bool × List Nat :=
  enrich_team_with_retry_from e cfg t 0

/-- The per-item consequence inside the batch loop of `enrich`
(base.py lines 146–152): an exception is logged and ignored, a
`True` result bumps the enriched count and applies the enrichment
marker, a `False` result leaves the team alone. -/
def process_team (e : Enricher) (cfg : EnricherConfig) (t : TeamRow) : Bool × TeamRow :=
  match (enrich_team_with_retry e cfg t).1 with
  | .error _ => (false, t)
  | .ok true => (true, t.apply_enrichment e.enricher_id e.now)
  | .ok false => (false, t)

/-- `teams[i:i+batch_size]` slices of the batch loop.  The source would
raise `ValueError` on `batch_size = 0` (`range` with step 0); the model
is only ever used with a positive batch size and treats 0 as a single
batch. -/
def chunkList (bs : Nat) (l : List TeamRow) : List (List TeamRow) :=
  if _h : l.isEmpty then []
  else if _h2 : bs = 0 then [l]
  else l.take bs :: chunkList bs (l.drop bs)
  termination_by l.length
  decreasing_by
    simp only [List.length_drop]
    cases l with
    | nil => simp at _h
    | cons a as => simp; omega

/-- One `asyncio.gather` wave plus its zip loop: per-item outcomes are
independent (each coroutine touches only its own team), so the wave is
its list of per-item consequences; the count and the in-place updates
are accumulated in zip order. -/
def process_batch (e : Enricher) (cfg : EnricherConfig) (batch : List TeamRow) :
    Nat × List TeamRow :=
  batch.foldl
    (fun acc t =>
      let r := process_team e cfg t
      (acc.1 + (if r.1 then 1 else 0), acc.2 ++ [r.2]))
    (0, [])

/-- `BaseEnricher.enrich` (base.py lines 95–182): empty input succeeds
with zero processed; an unavailable enricher fails with zero processed;
otherwise `pre_enrich`, the batched per-item loop (inter-batch pacing
sleeps are pure delays and not modelled), `post_enrich`; an exception
escaping `pre_enrich`/`post_enrich` is caught into a failure result
with `teams_processed = len(teams)` and `teams_enriched = 0`.  Returns
the result together with the (in-place mutated) team list. -/
def enrich (e : Enricher) (cfg : EnricherConfig) (teams : List TeamRow) :
    EnrichmentResult × List TeamRow :=
  if teams.isEmpty then
    ({ success := true, enricher_name := e.name, teams_processed := 0,
       teams_enriched := 0, timestamp := e.timestamp }, teams)
  else if !e.is_available then
    ({ success := false, enricher_name := e.name, teams_processed := 0,
       teams_enriched := 0, timestamp := e.timestamp,
       error := some ("Enricher " ++ e.name ++ " is not available (missing configuration)") },
     teams)
  else
    match e.pre_enrich teams with
    | .error ex =>
        ({ success := false, enricher_name := e.name, teams_processed := teams.length,
           teams_enriched := 0, timestamp := e.timestamp, error := some ex }, teams)
    | .ok _ =>
        let folded :=
          (chunkList cfg.batch_size teams).foldl
            (fun acc batch =>
              let r := process_batch e cfg batch
              (acc.1 + r.1, acc.2 ++ r.2))
            (0, [])
        match e.post_enrich folded.2 with
        | .error ex =>
            ({ success := false, enricher_name := e.name, teams_processed := teams.length,
               teams_enriched := 0, timestamp := e.timestamp, error := some ex }, folded.2)
        | .ok _ =>
            ({ success := true, enricher_name := e.name, teams_processed := teams.length,
               teams_enriched := folded.1, timestamp := e.timestamp }, folded.2)

/-! ## Python call binding (for the progress-callback contract)

`_run_enrichment_task` (main.py line 1246) calls
`enricher.enrich(teams, progress_callback=progress_cb)`, and the
concrete enrichers forward `progress_callback` to `super().enrich`.
Whether such a call binds is decided purely by the callee's parameter
list, embedded here. -/

structure PySignature where
  params : List String
  has_varkw : Bool := false
  deriving Repr, DecidableEq

/-- A keyword argument binds iff the signature has `**kwargs` or names
the parameter. -/
def acceptsKeyword (sig : PySignature) (kw : String) : Bool :=
  sig.has_varkw || sig.params.contains kw

/-- Binding the keyword arguments of a call site: any unknown keyword
raises `TypeError` before the function body runs. -/
def bindKeywords (sig : PySignature) (kwargs : List String) : Except String Unit :=
  if kwargs.all (acceptsKeyword sig) then .ok ()
  else .error "TypeError: unexpected keyword argument"

/-- `BaseEnricher.enrich(self, teams)` — base.py line 95. -/
def base_enrich_signature : PySignature := { params := ["self", "teams"] }

/-- `GeoEnricher.enrich(self, teams, progress_callback=None)` —
geo_enricher.py line 544 (social/sponsor/valuation/website are the
same); its body runs `super().enrich(teams, progress_callback=progress_callback)`. -/
def geo_enrich_signature : PySignature :=
  { params := ["self", "teams", "progress_callback"] }

/-- The keyword arguments `_run_enrichment_task` passes to
`enricher.enrich`, and that the subclass overrides forward to
`super().enrich`. -/
def run_task_enrich_kwargs : List String := ["progress_callback"]

/-! ## Task lifecycle (`main.py`, `EnrichmentTaskManager`)

Python objects are aliased: the active map `_tasks` and the history
list `_task_history` hold references to the same `EnrichmentTask`
objects.  The model therefore separates an object `store` (id → current
object state) from the two membership lists; operations that in the
source read or write `task.x` through a reference go straight to the
store, while operations that go through `self._tasks.get(task_id)`
first check active membership, exactly as the source does.  Subscriber
queues are fire-and-forget notification I/O and are not modelled. -/

inductive EnrichmentTaskStatus where
  | pending
  | running
  | completed
  | failed
  | cancelled
  deriving Repr, DecidableEq

/-- The terminal statuses (spec §4.4). -/
def EnrichmentTaskStatus.isTerminal : EnrichmentTaskStatus → Bool
  | .completed => true
  | .failed => true
  | .cancelled => true
  | _ => false

/-- `EnrichmentTaskProgress` dataclass with its source defaults. -/
structure EnrichmentTaskProgress where
  enricher_id : String
  enricher_name : String
  status : String := "pending"
  teams_processed : Nat := 0
  teams_enriched : Nat := 0
  teams_total : Nat := 0
  error : Option String := Option.none
  started_at : Option String := Option.none
  completed_at : Option String := Option.none
  duration_ms : Nat := 0
  deriving Repr, DecidableEq

/-- Generic first-match association-list lookup (Python dicts have
unique keys, so first-match agrees with dict lookup). -/
def alistGet {α : Type} (k : String) : List (String × α) → Option α
  | [] => Option.none
  | (k', v) :: rest => if k' = k then some v else alistGet k rest

/-- Replace the binding of `k` (dict item assignment). -/
def alistSet {α : Type} (k : String) (v : α) (l : List (String × α)) :
    List (String × α) :=
  (k, v) :: l.filter (fun p => p.1 ≠ k)

/-- `EnrichmentTask` dataclass.  Timestamps are abstract strings. -/
structure EnrichmentTask where
  id : String
  scraper_id : String
  scraper_name : String
  enricher_ids : List String
  status : EnrichmentTaskStatus := .pending
  progress : List (String × EnrichmentTaskProgress) := []
  created_at : String := ""
  started_at : Option String := Option.none
  completed_at : Option String := Option.none
  teams_total : Nat := 0
  teams_enriched : Nat := 0
  error : Option String := Option.none
  before_snapshot : Option (List (String × TeamDict)) := Option.none
  diff : Option EnrichmentDiff := Option.none
  deriving Repr, DecidableEq

/-- `EnrichmentTask.__post_init__`: one progress sub-record per
requested enricher id not already present, named from the registry
(`registryName` models `EnricherRegistry.create(id).name`, `Option.none`
for an unregistered id, in which case the id itself is used). -/
def initProgress (registryName : String → Option String) (enricher_ids : List String) :
    List (String × EnrichmentTaskProgress) :=
  enricher_ids.foldl
    (fun acc eid =>
      if (alistGet eid acc).isSome then acc
      else acc ++ [(eid, { enricher_id := eid, enricher_name := (registryName eid).getD eid })])
    []

/-- The manager state: object store plus `_tasks` / `_task_history`
membership (ids, newest-first for history). -/
structure EnrichmentTaskManager where
  store : List (String × EnrichmentTask) := []
  tasks : List String := []
  task_history : List String := []
  max_history : Nat := 50
  deriving Repr, DecidableEq

/-- Read a task object through a retained reference. -/
def storeGet (m : EnrichmentTaskManager) (task_id : String) : Option EnrichmentTask :=
  alistGet task_id m.store

/-- Write a task object through a retained reference. -/
def storeSet (m : EnrichmentTaskManager) (task_id : String) (t : EnrichmentTask) :
    EnrichmentTaskManager :=
  { m with store := alistSet task_id t m.store }

/-- `get_task`: `self._tasks.get(task_id)`. -/
def get_task (m : EnrichmentTaskManager) (task_id : String) : Option EnrichmentTask :=
  if task_id ∈ m.tasks then storeGet m task_id else Option.none

/-- `create_task` (uuid generation abstracted into the `task_id`
argument; the caller supplies a fresh id). -/
def create_task (m : EnrichmentTaskManager) (task_id scraper_id scraper_name : String)
    (enricher_ids : List String) (teams_total : Nat)
    (registryName : String → Option String) (created_at : String) :
    EnrichmentTaskManager :=
  let task : EnrichmentTask :=
    { id := task_id, scraper_id := scraper_id, scraper_name := scraper_name,
      enricher_ids := enricher_ids, teams_total := teams_total,
      created_at := created_at,
      progress := initProgress registryName enricher_ids }
  { m with store := (task_id, task) :: m.store, tasks := m.tasks ++ [task_id] }

/-- `update_task_progress`: no-op unless the task is active and has a
sub-record for `enricher_id`; otherwise apply the keyword updates `upd`
to that sub-record and recompute the aggregate enriched count as the
sum over all sub-records. -/
def update_task_progress (m : EnrichmentTaskManager) (task_id enricher_id : String)
    (upd : EnrichmentTaskProgress → EnrichmentTaskProgress) : EnrichmentTaskManager :=
  match get_task m task_id with
  | Option.none => m
  | some task =>
      match alistGet enricher_id task.progress with
      | Option.none => m
      | some p =>
          let progress := alistSet enricher_id (upd p) task.progress
          let task :=
            { task with
                progress := progress,
                teams_enriched := (progress.map (fun q => q.2.teams_enriched)).sum }
          storeSet m task_id task

/-- `mark_task_running`. -/
def mark_task_running (m : EnrichmentTaskManager) (task_id now : String) :
    EnrichmentTaskManager :=
  match get_task m task_id with
  | Option.none => m
  | some t => storeSet m task_id { t with status := .running, started_at := some now }

/-- `_move_to_history`: pop from the active map, prepend to history,
trim history to the cap. -/
def move_to_history (m : EnrichmentTaskManager) (task_id : String) :
    EnrichmentTaskManager :=
  if task_id ∈ m.tasks then
    { m with
        tasks := m.tasks.erase task_id,
        task_history := (task_id :: m.task_history).take m.max_history }
  else m

/-- `mark_task_completed(task_id, error=None)`: `FAILED` when an error
is given, `COMPLETED` otherwise, stamp completion, move to history.
No-op when the task is not in the active map. -/
def mark_task_completed (m : EnrichmentTaskManager) (task_id : String)
    (error : Option String) (now : String) : EnrichmentTaskManager :=
  match get_task m task_id with
  | Option.none => m
  | some t =>
      let t :=
        { t with
            status := if error.isSome then .failed else .completed,
            completed_at := some now,
            error := error }
      move_to_history (storeSet m task_id t) task_id

/-- `cancel_task`: signalling `_running_tasks[task_id].cancel()` is the
asyncio cancellation whose delivery is modelled in the run loop below;
the state change is: any task still in the active map becomes
`CANCELLED` and moves to history (returns `true`), otherwise no-op
(returns `false`). -/
def cancel_task (m : EnrichmentTaskManager) (task_id now : String) :
    EnrichmentTaskManager × Bool :=
  match get_task m task_id with
  | Option.none => (m, false)
  | some t =>
      (move_to_history
        (storeSet m task_id { t with status := .cancelled, completed_at := some now })
        task_id, true)

/-! ## The background run `_run_enrichment_task` (main.py 1166–1291)

`asyncio` semantics embedded: the coroutine suspends only inside
`enricher.enrich(...)` (network waits and pacing sleeps) — the
notification and progress calls never yield on unbounded queues — so an
external `cancel_task` takes effect as a `CancelledError` delivered at
the enclosing `enrich` call.  Each enricher slot therefore has one
observable call outcome. -/

/-- Outcome of one `await enricher.enrich(...)` call: a returned
result, a raised exception (caught per enricher), or asyncio
cancellation delivered during the call (the task manager has already
executed `cancel_task` by then). -/
inductive EnrichCallOutcome where
  | ok (r : EnrichmentResult)
  | exn (msg : String)
  | cancelledDuring

/-- Environment of one run: the registry (id → availability,
`Option.none` for unknown ids), the loaded data file, the per-slot
enrich outcomes, the post-run serialized records, and the save outcome. -/
structure RunEnv where
  registry : String → Option Bool
  loaded : Option (List TeamDict)
  outcome : Nat → EnrichCallOutcome
  afterData : List TeamDict
  saveOk : Except String Unit
  cancelledBeforeStart : Bool := false
  now : String := ""

/-- Observable events of one run, tagged with the enricher slot index. -/
inductive RunEvent where
  | cancelCheck (i : Nat) (observed : Bool)
  | skipMissing (i : Nat) (eid : String)
  | skipUnavailable (i : Nat) (eid : String)
  | enrichStart (i : Nat) (eid : String)
  | enrichReturn (i : Nat) (eid : String)
  | enrichCancelled (i : Nat) (eid : String)
  deriving Repr, DecidableEq

/-- The slot an event belongs to. -/
def RunEvent.slot : RunEvent → Nat
  | .cancelCheck i _ => i
  | .skipMissing i _ => i
  | .skipUnavailable i _ => i
  | .enrichStart i _ => i
  | .enrichReturn i _ => i
  | .enrichCancelled i _ => i

/-- `team.get("name", f"team_\x7bi\x7d")` as a snapshot key (the scrapers
always set a string name; a non-string name is out of scope and keyed
like a missing one). -/
def snapshotKey (i : Nat) (d : TeamDict) : String :=
  match dictGet "name" d with
  | some (.str s) => s
  | _ => "team_" ++ toString i

/-- The before-snapshot dict comprehension: keyed by name, later
duplicate keys win (realised under first-match lookup by reversing). -/
def build_before_snapshot (teams_data : List TeamDict) : List (String × TeamDict) :=
  ((teams_data.enum).map (fun p => (snapshotKey p.1 p.2, p.2))).reverse

/-- The enricher loop of `_run_enrichment_task` over the indexed
`enricher_ids`.  Returns the state, the event trace, and whether a
`CancelledError` is propagating (which the caller's outer handler
turns into `mark_task_completed(task_id, "Task was cancelled")`). -/
def runLoop (env : RunEnv) (teamsLen : Nat) (task_id : String) :
    EnrichmentTaskManager → List (Nat × String) →
    EnrichmentTaskManager × List RunEvent × Bool
  | m, [] => (m, [], false)
  | m, (i, eid) :: rest =>
    let observed :=
      match storeGet m task_id with
      | some t => t.status == EnrichmentTaskStatus.cancelled
      | Option.none => false
    if observed then (m, [.cancelCheck i true], false)
    else
      match env.registry eid with
      | Option.none =>
          let m := update_task_progress m task_id eid
            (fun p => { p with status := "failed",
                               error := some ("Enricher " ++ eid ++ " not found") })
          let r := runLoop env teamsLen task_id m rest
          (r.1, .cancelCheck i false :: .skipMissing i eid :: r.2.1, r.2.2)
      | some avail =>
        if !avail then
          let m := update_task_progress m task_id eid
            (fun p => { p with status := "failed",
                               error := some "Enricher not available (missing configuration)" })
          let r := runLoop env teamsLen task_id m rest
          (r.1, .cancelCheck i false :: .skipUnavailable i eid :: r.2.1, r.2.2)
        else
          let m := update_task_progress m task_id eid
            (fun p => { p with status := "running", started_at := some env.now,
                               teams_total := teamsLen })
          match env.outcome i with
          | .ok res =>
              let m := update_task_progress m task_id eid
                (fun p => { p with
                    status := if res.success then "completed" else "failed",
                    teams_processed := res.teams_processed,
                    teams_enriched := res.teams_enriched,
                    completed_at := some env.now,
                    duration_ms := res.duration_ms,
                    error := res.error })
              let r := runLoop env teamsLen task_id m rest
              (r.1, .cancelCheck i false :: .enrichStart i eid :: .enrichReturn i eid :: r.2.1,
               r.2.2)
          | .exn msg =>
              let m := update_task_progress m task_id eid
                (fun p => { p with status := "failed", completed_at := some env.now,
                                   duration_ms := 0, error := some msg })
              let r := runLoop env teamsLen task_id m rest
              (r.1, .cancelCheck i false :: .enrichStart i eid :: .enrichReturn i eid :: r.2.1,
               r.2.2)
          | .cancelledDuring =>
              let m := (cancel_task m task_id env.now).1
              let m := update_task_progress m task_id eid
                (fun p => { p with status := "cancelled", completed_at := some env.now })
              (m, [.cancelCheck i false, .enrichStart i eid, .enrichCancelled i eid], true)

/-- `task.teams_total = len(teams)` and `task.before_snapshot = {...}`
— direct object writes through the retained reference. -/
def set_task_snapshot (m : EnrichmentTaskManager) (task_id : String)
    (teams_data : List TeamDict) : EnrichmentTaskManager :=
  match storeGet m task_id with
  | Option.none => m
  | some t =>
      storeSet m task_id
        { t with teams_total := teams_data.length,
                 before_snapshot := some (build_before_snapshot teams_data) }

/-- `if task.before_snapshot: task.diff = _compute_enrichment_diff(...)`
— Python truthiness: a missing or empty snapshot skips the diff.
Direct object write. -/
def set_diff_if_snapshot (env : RunEnv) (m : EnrichmentTaskManager) (task_id : String) :
    EnrichmentTaskManager :=
  match storeGet m task_id with
  | Option.none => m
  | some t =>
      match t.before_snapshot with
      | Option.none => m
      | some snap =>
          if snap.isEmpty then m
          else
            storeSet m task_id
              { t with diff := some (compute_enrichment_diff snap env.afterData) }

/-- `_run_enrichment_task` end to end.  A pre-start asyncio
cancellation means the body never runs (the external `cancel_task` has
already updated the state). -/
def run_enrichment_task (env : RunEnv) (m0 : EnrichmentTaskManager) (task_id : String) :
    EnrichmentTaskManager × List RunEvent :=
  match get_task m0 task_id with
  | Option.none => (m0, [])
  | some task =>
    if env.cancelledBeforeStart then ((cancel_task m0 task_id env.now).1, [])
    else
      let m := mark_task_running m0 task_id env.now
      match env.loaded with
      | Option.none => (mark_task_completed m task_id (some "No data file found") env.now, [])
      | some teams_data =>
          let m := set_task_snapshot m task_id teams_data
          let r := runLoop env teams_data.length task_id m task.enricher_ids.enum
          let m := r.1
          if r.2.2 then
            (mark_task_completed m task_id (some "Task was cancelled") env.now, r.2.1)
          else
            match env.saveOk with
            | .error ex => (mark_task_completed m task_id (some ex) env.now, r.2.1)
            | .ok _ =>
                let m := set_diff_if_snapshot env m task_id
                (mark_task_completed m task_id Option.none env.now, r.2.1)

/-- No task in the active map is terminal — the managed invariant the
source maintains by moving every task to history in the same step that
makes it terminal. -/
def WellFormedMgr (m : EnrichmentTaskManager) : Prop :=
  ∀ task_id t, task_id ∈ m.tasks → storeGet m task_id = some t →
    t.status.isTerminal = false

/-! ## Concrete run fixtures -/

/-- A concrete one-enricher run for exercising `run_enrichment_task`:
one registered, available enricher whose call succeeds, a one-team data
file, and a successful save. -/
def c9_env : RunEnv :=
  { registry := fun _ => some true,
    loaded := some [[("name", PyVal.str "A")]],
    outcome := fun _ => EnrichCallOutcome.ok
      { success := true, enricher_name := "Geo", teams_processed := 1, teams_enriched := 1 },
    afterData := [[("name", PyVal.str "A"), ("city", PyVal.str "X")]],
    saveOk := Except.ok () }

def c9_m0 : EnrichmentTaskManager :=
  create_task {} "t1" "nfl" "NFL Teams" ["geo"] 0 (fun _ => some "Geo") "c0"

/-- The task object as `create_task` stores it. -/
def c9_init : EnrichmentTask :=
  { id := "t1", scraper_id := "nfl", scraper_name := "NFL Teams",
    enricher_ids := ["geo"], created_at := "c0",
    progress := [("geo", { enricher_id := "geo", enricher_name := "Geo" })] }

/-- The task object at the end of the successful run. -/
def c9_final : EnrichmentTask :=
  { id := "t1", scraper_id := "nfl", scraper_name := "NFL Teams",
    enricher_ids := ["geo"], status := .completed,
    progress := [("geo",
      { enricher_id := "geo", enricher_name := "Geo", status := "completed",
        teams_processed := 1, teams_enriched := 1, teams_total := 1,
        started_at := some "", completed_at := some "", duration_ms := 0 })],
    created_at := "c0", started_at := some "", completed_at := some "",
    teams_total := 1, teams_enriched := 1,
    before_snapshot := some [("A", [("name", PyVal.str "A")])],
    diff := some (compute_enrichment_diff [("A", [("name", PyVal.str "A")])]
      [[("name", PyVal.str "A"), ("city", PyVal.str "X")]]) }

/-- A concrete two-enricher run for the loop of `_run_enrichment_task`:
slot 0 requests the unregistered id `geo`, slot 1 the registered and
available id `cap` whose call succeeds. -/
def c8_env : RunEnv :=
  { registry := fun e => if e = "cap" then some true else Option.none,
    loaded := some [],
    outcome := fun _ => EnrichCallOutcome.ok
      { success := true, enricher_name := "Cap", teams_processed := 0, teams_enriched := 0 },
    afterData := [],
    saveOk := Except.ok () }

def c8_m : EnrichmentTaskManager :=
  create_task {} "t1" "s" "S" ["geo", "cap"] 0 (fun _ => Option.none) "c0"

/-- The task object as `create_task` stores it for the `c8` run. -/
def c8_init : EnrichmentTask :=
  { id := "t1", scraper_id := "s", scraper_name := "S",
    enricher_ids := ["geo", "cap"], created_at := "c0",
    progress := [("geo", { enricher_id := "geo", enricher_name := "geo" }),
                 ("cap", { enricher_id := "cap", enricher_name := "cap" })] }

/-! # Theorems -/

/-! ## Small facts about `pyEq` -/

theorem isNoneV_iff (v : PyVal) : v.isNoneV = true ↔ v = .none := by
  cases v <;> simp [PyVal.isNoneV]

theorem pyEq_nil_right (v : PyVal) : pyEq v (.list []) = true ↔ v = .list [] := by
  cases v with
  | list l => cases l <;> simp [pyEq, pyEq.pyEqList]
  | _ => simp [pyEq]

theorem pyEq_emptystr_right (v : PyVal) : pyEq v (.str "") = true ↔ v = .str "" := by
  cases v <;> simp [pyEq]

theorem pyEq_none_right (v : PyVal) : pyEq v .none = true ↔ v = .none := by
  cases v <;> simp [pyEq]

theorem pyEq_nil_left (v : PyVal) : pyEq (.list []) v = true ↔ v = .list [] := by
  cases v with
  | list l => cases l <;> simp [pyEq, pyEq.pyEqList]
  | _ => simp [pyEq]

theorem pyEq_emptystr_left (v : PyVal) : pyEq (.str "") v = true ↔ v = .str "" := by
  cases v with
  | str s => simp only [pyEq, beq_iff_eq, PyVal.str.injEq]; exact eq_comm
  | _ => simp [pyEq]

theorem pyEq_none_left (v : PyVal) : pyEq .none v = true ↔ v = .none := by
  cases v <;> simp [pyEq]

/-- **C1** (code_bug evidence).  The spec says `enrich(records, optional
progress_callback)` accepts and invokes a progress callback, and
`_run_enrichment_task` (main.py 1246) indeed calls
`enricher.enrich(teams, progress_callback=progress_cb)` — but the
shared driver `BaseEnricher.enrich(self, teams)` declares no such
parameter (and no `**kwargs`), so the keyword never binds: the concrete
enrichers that declare the parameter forward it to `super().enrich`,
which raises `TypeError`, and the base driver body contains no callback
invocation at all. -/
theorem progress_callback_not_accepted :
    bindKeywords base_enrich_signature run_task_enrich_kwargs =
      .error "TypeError: unexpected keyword argument" ∧
    bindKeywords geo_enrich_signature run_task_enrich_kwargs = .ok () ∧
    acceptsKeyword base_enrich_signature "progress_callback" = false := by
  refine ⟨rfl, rfl, rfl⟩

/-- **C4** (counterexample).  The claim includes the empty record list,
but `enrich` checks `if not teams` *before* `is_available()`: on an
unavailable enricher and `[]` it returns `success=True` with no error,
not the claimed `success=false` with a non-null error. -/
theorem availability_gate_empty_counterexample :
    (enrich { enricher_id := "stub", is_available := false,
              enrich_team := fun _ _ => .ok false } {} []).1.success = true ∧
    (enrich { enricher_id := "stub", is_available := false,
              enrich_team := fun _ _ => .ok false } {} []).1.error = Option.none := by
  exact ⟨rfl, rfl⟩

/-- **C4** (amended).  For every *non-empty* list of records, `enrich`
on an unavailable enricher returns `success=false`, `processed=0`, a
non-null error, and mutates no record. -/
theorem availability_gate (e : Enricher) (cfg : EnricherConfig) (teams : List TeamRow)
    (hne : teams ≠ []) (hav : e.is_available = false) :
    (enrich e cfg teams).1.success = false ∧
    (enrich e cfg teams).1.teams_processed = 0 ∧
    (enrich e cfg teams).1.error ≠ Option.none ∧
    (enrich e cfg teams).2 = teams := by
  have h1 : teams.isEmpty = false := by
    cases teams with
    | nil => exact absurd rfl hne
    | cons a as => rfl
  unfold enrich
  simp [h1, hav]

/-- Witness for the amended **C4** at a concrete unavailable enricher
and a one-record batch. -/
theorem availability_gate_witness :
    (enrich { enricher_id := "stub", is_available := false,
              enrich_team := fun _ _ => .ok false } {}
        [{ name := "A" }]).1.success = false ∧
    (enrich { enricher_id := "stub", is_available := false,
              enrich_team := fun _ _ => .ok false } {}
        [{ name := "A" }]).1.teams_processed = 0 ∧
    (enrich { enricher_id := "stub", is_available := false,
              enrich_team := fun _ _ => .ok false } {}
        [{ name := "A" }]).1.error ≠ Option.none ∧
    (enrich { enricher_id := "stub", is_available := false,
              enrich_team := fun _ _ => .ok false } {}
        [{ name := "A" }]).2 = [{ name := "A" }] :=
  availability_gate _ _ _ (by simp) rfl

/-- The disjunction `old_value is None or old_value == [] or old_value == ""`
holds exactly for the three "empty" values. -/
theorem emptyish_char (v : PyVal) :
    (v.isNoneV || pyEq v (.list []) || pyEq v (.str "")) = true ↔
      (v = .none ∨ v = .list [] ∨ v = .str "") := by
  simp only [Bool.or_eq_true, isNoneV_iff, pyEq_nil_right, pyEq_emptystr_right]
  tauto

/-- The populated-new-value test of the `added` branch. -/
theorem nonemptyish_char (v : PyVal) :
    (!v.isNoneV && !pyEq v (.list []) && !pyEq v (.str "")) = true ↔
      ¬(v = .none ∨ v = .list [] ∨ v = .str "") := by
  constructor
  · intro h hc
    rcases hc with h' | h' | h' <;> subst h' <;>
      simp [PyVal.isNoneV, pyEq, pyEq.pyEqList] at h
  · intro h
    push_neg at h
    obtain ⟨c1, c2, c3⟩ := h
    simp only [Bool.and_eq_true, Bool.not_eq_true']
    refine ⟨⟨?_, ?_⟩, ?_⟩
    · exact Bool.eq_false_iff.mpr (fun hb => c1 ((isNoneV_iff v).mp hb))
    · exact Bool.eq_false_iff.mpr (fun hb => c2 ((pyEq_nil_right v).mp hb))
    · exact Bool.eq_false_iff.mpr (fun hb => c3 ((pyEq_emptystr_right v).mp hb))

/-- The fold of the inner field loop, characterised: the changes are
the display-formatted raw changes, the per-team counters count the raw
`added`/`modified` classifications. -/
theorem diffFieldStep_foldl (before : TeamDict) (d : TeamDict) :
    ∀ td : EnrichmentTeamDiff,
      d.foldl (diffFieldStep before) td =
        { team_name := td.team_name,
          changes := td.changes ++ (rawChanges before d).map formatChange,
          fields_added := td.fields_added +
            (rawChanges before d).countP (fun c => c.change_type == "added"),
          fields_modified := td.fields_modified +
            (rawChanges before d).countP (fun c => c.change_type == "modified") } := by
  induction d with
  | nil => intro td; simp [rawChanges]
  | cons p d ih =>
      intro td
      obtain ⟨f, nv⟩ := p
      rw [List.foldl_cons, ih]
      by_cases hig : f ∈ ignore_fields
      · simp [diffFieldStep, rawChanges, List.filterMap_cons, rawChange, hig]
      · cases hcl : classifyChange ((dictGet f before).getD .none) nv with
        | none =>
            simp [diffFieldStep, rawChanges, List.filterMap_cons, rawChange, hig, hcl]
        | some ct =>
            by_cases hadd : ct = "added"
            · subst hadd
              simp [diffFieldStep, rawChanges, List.filterMap_cons, rawChange, hig, hcl,
                formatChange, List.countP_cons]
              omega
            · by_cases hmod : ct = "modified"
              · subst hmod
                simp [diffFieldStep, rawChanges, List.filterMap_cons, rawChange, hig, hcl,
                  formatChange, List.countP_cons, hadd]
                omega
              · simp [diffFieldStep, rawChanges, List.filterMap_cons, rawChange, hig, hcl,
                  formatChange, List.countP_cons, hadd, hmod]

/-- **C5** (confirmed).  The classification cascade reports `added`
exactly when the old value is null/empty/blank and the new one is not,
`removed` exactly when the old value is populated and the new one is
null/empty/blank, `modified` exactly when both are populated and differ
under Python equality, and nothing when they are equal or both empty;
and the per-team diff applies exactly this classification to every
field except the two bookkeeping fields, with display formatting
applied only to the rendered values. -/
theorem diff_classification :
    (∀ ov nv : PyVal,
      (classifyChange ov nv = some "added" ↔
        ((ov = .none ∨ ov = .list [] ∨ ov = .str "") ∧
         ¬(nv = .none ∨ nv = .list [] ∨ nv = .str ""))) ∧
      (classifyChange ov nv = some "removed" ↔
        (¬(ov = .none ∨ ov = .list [] ∨ ov = .str "") ∧
         (nv = .none ∨ nv = .list [] ∨ nv = .str ""))) ∧
      (classifyChange ov nv = some "modified" ↔
        (¬(ov = .none ∨ ov = .list [] ∨ ov = .str "") ∧
         ¬(nv = .none ∨ nv = .list [] ∨ nv = .str "") ∧ pyEq ov nv = false)) ∧
      (classifyChange ov nv = Option.none ↔
        (pyEq ov nv = true ∨
         ((ov = .none ∨ ov = .list [] ∨ ov = .str "") ∧
          (nv = .none ∨ nv = .list [] ∨ nv = .str ""))))) ∧
    (∀ (team_name : PyVal) (before d : TeamDict),
      diffTeam team_name before d =
        { team_name := team_name,
          changes := (rawChanges before d).map formatChange,
          fields_added := (rawChanges before d).countP (fun c => c.change_type == "added"),
          fields_modified :=
            (rawChanges before d).countP (fun c => c.change_type == "modified") }) := by
  constructor
  · intro ov nv
    unfold classifyChange
    split_ifs with h1 h2 h3 h4 h5 h6
    · rw [Bool.and_eq_true, isNoneV_iff, isNoneV_iff] at h1
      obtain ⟨ho, hn⟩ := h1
      subst ho; subst hn
      simp [pyEq]
    · rw [Bool.and_eq_true, pyEq_nil_right, pyEq_nil_right] at h2
      obtain ⟨ho, hn⟩ := h2
      subst ho; subst hn
      simp [pyEq, pyEq.pyEqList]
    · refine ⟨?_, ?_, ?_, ?_⟩
      · simp only [false_iff]
        rintro ⟨hE, hnE⟩
        rcases hE with h | h | h <;> subst h
        · exact hnE (Or.inl ((pyEq_none_left nv).mp h3))
        · exact hnE (Or.inr (Or.inl ((pyEq_nil_left nv).mp h3)))
        · exact hnE (Or.inr (Or.inr ((pyEq_emptystr_left nv).mp h3)))
      · simp only [false_iff]
        rintro ⟨hnE, hE⟩
        rcases hE with h | h | h <;> subst h
        · exact hnE (Or.inl ((pyEq_none_right ov).mp h3))
        · exact hnE (Or.inr (Or.inl ((pyEq_nil_right ov).mp h3)))
        · exact hnE (Or.inr (Or.inr ((pyEq_emptystr_right ov).mp h3)))
      · simp only [false_iff]
        rintro ⟨-, -, hflse⟩
        rw [h3] at hflse
        exact absurd hflse (by decide)
      · simp [h3]
    · rw [emptyish_char] at h4
      rw [nonemptyish_char] at h5
      refine ⟨?_, ?_, ?_, ?_⟩
      · simp [h4, h5]
      · simp [h4]
      · simp [h4]
      · simp [h3, h5]
    · rw [emptyish_char] at h4
      rw [nonemptyish_char] at h5
      rw [not_not] at h5
      refine ⟨?_, ?_, ?_, ?_⟩
      · simp [h5]
      · simp [h4]
      · simp [h5]
      · simp [h4, h5]
    · rw [emptyish_char] at h4
      rw [emptyish_char] at h6
      refine ⟨?_, ?_, ?_, ?_⟩
      · simp [h4]
      · simp [h4, h6]
      · simp [h6]
      · simp [h3, h4]
    · rw [emptyish_char] at h4
      rw [emptyish_char] at h6
      have h3f : pyEq ov nv = false := Bool.eq_false_iff.mpr h3
      refine ⟨?_, ?_, ?_, ?_⟩
      · simp [h4]
      · simp [h6]
      · simp [h4, h6, h3f]
      · simp [h3, h4]
  · intro team_name before d
    unfold diffTeam
    rw [diffFieldStep_foldl]
    simp

/-- One outer-loop step only ever adds a team whose change list is
non-empty. -/
theorem diffTeamStep_mem_teams (snap : List (String × TeamDict)) (acc : EnrichmentDiff)
    (d : TeamDict) :
    ∀ t ∈ (diffTeamStep snap acc d).teams, t ∈ acc.teams ∨ t.changes ≠ [] := by
  intro t ht
  unfold diffTeamStep at ht
  dsimp only at ht
  split at ht
  · exact Or.inl ht
  · next h =>
      simp only [List.mem_append, List.mem_singleton] at ht
      rcases ht with ht | ht
      · exact Or.inl ht
      · subst ht
        refine Or.inr (fun hc => ?_)
        exact h (by rw [hc]; rfl)

/-- The outer team fold never adds a team with an empty change list. -/
theorem diffTeamStep_foldl_nonempty (snap : List (String × TeamDict)) :
    ∀ (after : List TeamDict) (acc : EnrichmentDiff),
      (∀ t ∈ acc.teams, t.changes ≠ []) →
      ∀ t ∈ (after.foldl (diffTeamStep snap) acc).teams, t.changes ≠ [] := by
  intro after
  induction after with
  | nil => intro acc hacc; simpa using hacc
  | cons d rest ih =>
      intro acc hacc
      rw [List.foldl_cons]
      apply ih
      intro t ht
      rcases diffTeamStep_mem_teams snap acc d t ht with h | h
      · exact hacc t h
      · exact h

/-- `mergeSort` of a one-element list. -/
theorem mergeSort_singleton {α : Type} (a : α) (le : α → α → Bool) :
    [a].mergeSort le = [a] :=
  List.perm_singleton.mp (List.mergeSort_perm [a] le)

/-- `moreChanges` in propositional form. -/
theorem moreChanges_iff (a b : EnrichmentTeamDiff) :
    moreChanges a b = true ↔ b.changes.length ≤ a.changes.length := by
  simp [moreChanges]

/-- **C6** (counterexample).  On the spec's own P6 example —
"sponsors" going from `["A","B","C","D"]` to `["A","B"]` — the
displayed old value is `["A","B","C","...+1 more"]`: the truncation
marker the code produces is `"...+N more"`, not the bare `"+N more"` /
`["A","B","C","+1 more"]` the claim states. -/
theorem truncation_marker_counterexample :
    (compute_enrichment_diff
        [("Alpha", [("name", .str "Alpha"),
                    ("sponsors", .list [.str "A", .str "B", .str "C", .str "D"])])]
        [[("name", .str "Alpha"), ("sponsors", .list [.str "A", .str "B"])]]).teams =
      [{ team_name := .str "Alpha",
         changes := [{ field := "sponsors",
                       old_value := .list [.str "A", .str "B", .str "C", .str "...+1 more"],
                       new_value := .list [.str "A", .str "B"],
                       change_type := "modified" }],
         fields_added := 0, fields_modified := 1 }] ∧
    (PyVal.list [.str "A", .str "B", .str "C", .str "...+1 more"] ≠
      PyVal.list [.str "A", .str "B", .str "C", .str "+1 more"]) := by
  constructor
  · have hfold :
        ([[("name", PyVal.str "Alpha"), ("sponsors", PyVal.list [.str "A", .str "B"])]].foldl
          (diffTeamStep
            [("Alpha", [("name", .str "Alpha"),
                        ("sponsors", .list [.str "A", .str "B", .str "C", .str "D"])])])
          ({} : EnrichmentDiff)).teams =
          [{ team_name := .str "Alpha",
             changes := [{ field := "sponsors",
                           old_value := .list [.str "A", .str "B", .str "C", .str "...+1 more"],
                           new_value := .list [.str "A", .str "B"],
                           change_type := "modified" }],
             fields_added := 0, fields_modified := 1 }] := by decide
    unfold compute_enrichment_diff
    dsimp only
    rw [hfold, mergeSort_singleton]
  · decide

/-- **C6** (amended).  Teams with zero qualifying changes are omitted,
the team list is sorted descending by number of changes, a list of more
than 3 elements collapses to its first 3 plus a `"...+N more"` marker
(in particular a 4-element list to its first 3 plus `"...+1 more"`), a
string longer than 100 characters is truncated to its first 100 plus
`"..."`, and display truncation never affects the classification — the
change list is the raw classified change list with formatting mapped
over the displayed values only. -/
theorem diff_display_and_order :
    (∀ (snap : List (String × TeamDict)) (after : List TeamDict),
      ∀ t ∈ (compute_enrichment_diff snap after).teams, t.changes ≠ []) ∧
    (∀ (snap : List (String × TeamDict)) (after : List TeamDict),
      (compute_enrichment_diff snap after).teams.Pairwise
        (fun a b => b.changes.length ≤ a.changes.length)) ∧
    (∀ l : List PyVal, 3 < l.length →
      format_value (.list l) =
        .list (l.take 3 ++ [.str ("...+" ++ toString (l.length - 3) ++ " more")])) ∧
    (∀ l : List PyVal, l.length ≤ 3 → format_value (.list l) = .list l) ∧
    (∀ s : String, 100 < s.length → format_value (.str s) = .str (s.take 100 ++ "...")) ∧
    (∀ a b c dd : PyVal,
      format_value (.list [a, b, c, dd]) = .list [a, b, c, .str "...+1 more"]) ∧
    (∀ (team_name : PyVal) (before d : TeamDict),
      (diffTeam team_name before d).changes = (rawChanges before d).map formatChange) := by
  refine ⟨?_, ?_, ?_, ?_, ?_, ?_, ?_⟩
  · intro snap after t ht
    unfold compute_enrichment_diff at ht
    simp only [List.mem_mergeSort] at ht
    exact diffTeamStep_foldl_nonempty snap after {} (by simp) t ht
  · intro snap after
    unfold compute_enrichment_diff
    dsimp only
    have htr : ∀ a b c : EnrichmentTeamDiff, moreChanges a b = true →
        moreChanges b c = true → moreChanges a c = true := by
      intro a b c hab hbc
      rw [moreChanges_iff] at hab hbc ⊢
      omega
    have hto : ∀ a b : EnrichmentTeamDiff, (moreChanges a b || moreChanges b a) = true := by
      intro a b
      rw [Bool.or_eq_true, moreChanges_iff, moreChanges_iff]
      omega
    have hs := List.sorted_mergeSort htr hto
      ((after.foldl (diffTeamStep snap) {}).teams)
    exact hs.imp (fun hab => (moreChanges_iff _ _).mp hab)
  · intro l h
    simp only [format_value]
    rw [if_pos h]
  · intro l h
    simp only [format_value]
    rw [if_neg (by omega)]
  · intro s h
    simp only [format_value]
    rw [if_pos h]
  · intro a b c dd
    simp [format_value]
    rfl
  · intro team_name before d
    unfold diffTeam
    rw [diffFieldStep_foldl]
    simp

/-- Witness for the amended **C6**: a 1-element list is displayed
unchanged (the ≤ 3 clause at a concrete input). -/
theorem diff_display_and_order_witness :
    format_value (.list [.int 1]) = .list [.int 1] :=
  diff_display_and_order.2.2.2.1 [.int 1] (by decide)

/-- Every classification the cascade emits is one of the three kinds. -/
theorem classify_some_cases (ov nv : PyVal) (ct : String)
    (h : classifyChange ov nv = some ct) :
    ct = "added" ∨ ct = "modified" ∨ ct = "removed" := by
  unfold classifyChange at h
  split_ifs at h <;> simp at h <;> subst h <;> tauto

/-- A change list whose types all lie in the three kinds has length
`added + modified + removed`. -/
theorem count_three (cs : List EnrichmentFieldDiff)
    (h : ∀ c ∈ cs, c.change_type = "added" ∨ c.change_type = "modified" ∨
        c.change_type = "removed") :
    cs.length = cs.countP (fun c => c.change_type == "added") +
      cs.countP (fun c => c.change_type == "modified") +
      cs.countP (fun c => c.change_type == "removed") := by
  induction cs with
  | nil => simp
  | cons c cs ih =>
      have hc := h c (by simp)
      have ih' := ih (fun x hx => h x (by simp [hx]))
      rcases hc with h1 | h1 | h1 <;>
        simp [List.countP_cons, h1, ih'] <;> omega

/-- **C10** (confirmed).  A `removed` change is appended to the team's
change list (so it counts toward the team's change count and toward
`teams_changed`) but bumps neither per-team counter, so the aggregate
`total_fields_added + total_fields_modified` can be strictly smaller
than the number of reported changes — as on the concrete removed-only
example below. -/
theorem removed_changes_accounting :
    (∀ (team_name : PyVal) (before d : TeamDict),
      (diffTeam team_name before d).fields_added =
        (diffTeam team_name before d).changes.countP
          (fun c => c.change_type == "added") ∧
      (diffTeam team_name before d).fields_modified =
        (diffTeam team_name before d).changes.countP
          (fun c => c.change_type == "modified") ∧
      (diffTeam team_name before d).changes.length =
        (diffTeam team_name before d).fields_added +
        (diffTeam team_name before d).fields_modified +
        (diffTeam team_name before d).changes.countP
          (fun c => c.change_type == "removed")) ∧
    ((compute_enrichment_diff
        [("A", [("name", .str "A"), ("stadium_name", .str "Old Arena")])]
        [[("name", .str "A"), ("stadium_name", PyVal.none)]]).teams_changed = 1 ∧
     (compute_enrichment_diff
        [("A", [("name", .str "A"), ("stadium_name", .str "Old Arena")])]
        [[("name", .str "A"), ("stadium_name", PyVal.none)]]).total_fields_added = 0 ∧
     (compute_enrichment_diff
        [("A", [("name", .str "A"), ("stadium_name", .str "Old Arena")])]
        [[("name", .str "A"), ("stadium_name", PyVal.none)]]).total_fields_modified = 0 ∧
     ((compute_enrichment_diff
        [("A", [("name", .str "A"), ("stadium_name", .str "Old Arena")])]
        [[("name", .str "A"), ("stadium_name", PyVal.none)]]).teams.map
          (fun t => t.changes.map (fun c => c.change_type))) = [["removed"]]) := by
  constructor
  · intro team_name before d
    have hch : diffTeam team_name before d =
        { team_name := team_name,
          changes := (rawChanges before d).map formatChange,
          fields_added := (rawChanges before d).countP (fun c => c.change_type == "added"),
          fields_modified :=
            (rawChanges before d).countP (fun c => c.change_type == "modified") } := by
      unfold diffTeam
      rw [diffFieldStep_foldl]
      simp
    have hkinds0 : ∀ c ∈ rawChanges before d,
        c.change_type = "added" ∨ c.change_type = "modified" ∨ c.change_type = "removed" := by
      intro c hc
      rw [rawChanges, List.mem_filterMap] at hc
      obtain ⟨p, -, hp⟩ := hc
      unfold rawChange at hp
      by_cases hig : p.1 ∈ ignore_fields
      · rw [if_pos hig] at hp
        exact absurd hp (by simp)
      · rw [if_neg hig] at hp
        dsimp only at hp
        rw [Option.map_eq_some'] at hp
        obtain ⟨ct, hct, hmk⟩ := hp
        have hcs := classify_some_cases _ _ _ hct
        rw [← hmk]
        simpa using hcs
    have hcomp : ∀ (s : String),
        ((rawChanges before d).map formatChange).countP (fun c => c.change_type == s) =
          (rawChanges before d).countP (fun c => c.change_type == s) := by
      intro s
      rw [List.countP_map]
      exact List.countP_congr (fun c _ => by simp [Function.comp, formatChange])
    refine ⟨?_, ?_, ?_⟩
    · rw [hch]
      exact (hcomp "added").symm
    · rw [hch]
      exact (hcomp "modified").symm
    · rw [hch]
      have h3 := count_three (rawChanges before d) hkinds0
      simp only [List.length_map, hcomp]
      exact h3
  · have hfold :
        ([[("name", PyVal.str "A"), ("stadium_name", PyVal.none)]].foldl
          (diffTeamStep [("A", [("name", .str "A"), ("stadium_name", .str "Old Arena")])])
          ({} : EnrichmentDiff)).teams =
          [{ team_name := .str "A",
             changes := [{ field := "stadium_name", old_value := .str "Old Arena",
                           new_value := PyVal.none, change_type := "removed" }],
             fields_added := 0, fields_modified := 0 }] := by decide
    refine ⟨by decide, by decide, by decide, ?_⟩
    unfold compute_enrichment_diff
    dsimp only
    rw [hfold, mergeSort_singleton]
    decide

/-! ## The shared driver, characterised -/

theorem chunkList_flatten (bs : Nat) (l : List TeamRow) :
    (chunkList bs l).flatten = l := by
  generalize hn : l.length = n
  induction n using Nat.strong_induction_on generalizing l with
  | _ n ih =>
      unfold chunkList
      split_ifs with h1 h2
      · simp [List.isEmpty_iff.mp h1]
      · simp
      · have hlen : 0 < l.length := by
          cases l with
          | nil => simp at h1
          | cons a as => simp
        rw [List.flatten_cons,
          ih (l.drop bs).length (by rw [List.length_drop]; omega) (l.drop bs) rfl]
        exact List.take_append_drop bs l

theorem map_eraseIdx {α β : Type} (f : α → β) :
    ∀ (l : List α) (k : Nat), (l.map f).eraseIdx k = (l.eraseIdx k).map f := by
  intro l
  induction l with
  | nil => intro k; simp
  | cons a as ih =>
      intro k
      cases k with
      | zero => simp [List.eraseIdx]
      | succ k => simp [List.eraseIdx, ih k]

theorem countP_eraseIdx_false {α : Type} (p : α → Bool) :
    ∀ (l : List α) (k : Nat) (hk : k < l.length), p (l.get ⟨k, hk⟩) = false →
      l.countP p = (l.eraseIdx k).countP p := by
  intro l
  induction l with
  | nil => intro k hk; simp at hk
  | cons a as ih =>
      intro k hk hp
      cases k with
      | zero =>
          simp only [List.get] at hp
          simp [List.eraseIdx, List.countP_cons, hp]
      | succ k =>
          simp only [List.get] at hp
          have hk' : k < as.length := by simpa using hk
          simp only [List.eraseIdx, List.countP_cons]
          rw [ih k hk' hp]

/-- The per-batch fold, characterised against its accumulator. -/
theorem process_batch_foldl (e : Enricher) (cfg : EnricherConfig) :
    ∀ (batch : List TeamRow) (acc : Nat × List TeamRow),
      batch.foldl
        (fun acc t =>
          let r := process_team e cfg t
          (acc.1 + (if r.1 then 1 else 0), acc.2 ++ [r.2])) acc =
      (acc.1 + batch.countP (fun t => (process_team e cfg t).1),
       acc.2 ++ batch.map (fun t => (process_team e cfg t).2)) := by
  intro batch
  induction batch with
  | nil => intro acc; simp
  | cons t ts ih =>
      intro acc
      rw [List.foldl_cons, ih]
      simp only [List.countP_cons, List.map_cons, Prod.mk.injEq]
      constructor
      · cases hpt : (process_team e cfg t).1
        · simp [hpt]
        · simp [hpt]
          omega
      · simp

/-- `process_batch` is the per-item count and the per-item map. -/
theorem process_batch_spec (e : Enricher) (cfg : EnricherConfig) (batch : List TeamRow) :
    process_batch e cfg batch =
      (batch.countP (fun t => (process_team e cfg t).1),
       batch.map (fun t => (process_team e cfg t).2)) := by
  unfold process_batch
  rw [process_batch_foldl]
  simp

/-- The batch loop over the chunks processes exactly the concatenation
of the chunks, item by item. -/
theorem chunks_foldl (e : Enricher) (cfg : EnricherConfig) :
    ∀ (chunks : List (List TeamRow)) (acc : Nat × List TeamRow),
      chunks.foldl
        (fun acc batch =>
          let r := process_batch e cfg batch
          (acc.1 + r.1, acc.2 ++ r.2)) acc =
      (acc.1 + chunks.flatten.countP (fun t => (process_team e cfg t).1),
       acc.2 ++ chunks.flatten.map (fun t => (process_team e cfg t).2)) := by
  intro chunks
  induction chunks with
  | nil => intro acc; simp
  | cons c cs ih =>
      intro acc
      rw [List.foldl_cons, ih]
      simp only [process_batch_spec, List.flatten_cons, List.countP_append,
        List.map_append, Prod.mk.injEq]
      constructor
      · omega
      · simp [List.append_assoc]

/-- A normal run of `enrich` (available, hooks succeed): processed is
the full list, the enriched count counts the items whose retry outcome
was `True`, and each team's final state is its own per-item consequence. -/
theorem enrich_spec (e : Enricher) (cfg : EnricherConfig) (teams : List TeamRow)
    (hav : e.is_available = true)
    (hpre : e.pre_enrich teams = .ok ())
    (hpost : e.post_enrich (teams.map (fun t => (process_team e cfg t).2)) = .ok ()) :
    enrich e cfg teams =
      ({ success := true, enricher_name := e.name, teams_processed := teams.length,
         teams_enriched := teams.countP (fun t => (process_team e cfg t).1),
         duration_ms := 0, timestamp := e.timestamp, error := Option.none },
       teams.map (fun t => (process_team e cfg t).2)) := by
  by_cases hemp : teams.isEmpty
  · have hnil : teams = [] := List.isEmpty_iff.mp hemp
    subst hnil
    unfold enrich
    simp
  · unfold enrich
    rw [if_neg hemp, hav]
    simp only [Bool.not_true, Bool.false_eq_true, if_false]
    rw [hpre]
    dsimp only
    rw [chunks_foldl, chunkList_flatten]
    dsimp only
    simp only [List.nil_append, Nat.zero_add]
    rw [hpost]

/-- A hook that throws on every attempt never yields an enriched item:
the retry loop ends in the re-raised last exception (or `False` when
`max_retries = 0`). -/
theorem retryFrom_throws (e : Enricher) (cfg : EnricherConfig) (t : TeamRow)
    (errOf : Nat → String)
    (h : ∀ n, e.enrich_team t n = .error (errOf n)) :
    ∀ d a, cfg.max_retries - a = d →
      (enrich_team_with_retry_from e cfg t a).1 = .ok false ∨
      (enrich_team_with_retry_from e cfg t a).1 =
        .error (errOf (cfg.max_retries - 1)) := by
  intro d
  induction d with
  | zero =>
      intro a ha
      unfold enrich_team_with_retry_from
      rw [if_neg (by omega)]
      exact Or.inl rfl
  | succ d ih =>
      intro a ha
      unfold enrich_team_with_retry_from
      rw [if_pos (by omega), h a]
      dsimp only
      by_cases hlast : a = cfg.max_retries - 1
      · rw [if_pos hlast, hlast]
        exact Or.inr rfl
      · rw [if_neg hlast]
        dsimp only
        exact ih (a + 1) (by omega)

/-- A failing-every-time item is processed but not enriched and left
unchanged by the driver. -/
theorem process_team_throws (e : Enricher) (cfg : EnricherConfig) (t : TeamRow)
    (errOf : Nat → String)
    (h : ∀ n, e.enrich_team t n = .error (errOf n)) :
    process_team e cfg t = (false, t) := by
  unfold process_team enrich_team_with_retry
  rcases retryFrom_throws e cfg t errOf h cfg.max_retries 0 rfl with h' | h'
  · rw [h']
  · rw [h']

/-- The retry loop when the hook throws on attempts `a, a+1, …, R-2`
and succeeds (with a change) on attempt `R-1`, run with
`max_retries = R`: it succeeds, sleeping `retry_delay × (i+1)` before
each re-attempt. -/
theorem retryFrom_succeeds (e : Enricher) (cfg : EnricherConfig) (t : TeamRow)
    (R : Nat) (errOf : Nat → String)
    (hcfg : cfg.max_retries = R)
    (hthrow : ∀ n, n + 1 < R → e.enrich_team t n = .error (errOf n))
    (hsucc : e.enrich_team t (R - 1) = .ok true) :
    ∀ d a, a + d + 1 = R →
      enrich_team_with_retry_from e cfg t a =
        (.ok true, (List.range' a d).map (fun i => cfg.retry_delay_ms * (i + 1))) := by
  intro d
  induction d with
  | zero =>
      intro a ha
      unfold enrich_team_with_retry_from
      rw [if_pos (by omega), show a = R - 1 by omega, hsucc]
      simp
  | succ d ih =>
      intro a ha
      unfold enrich_team_with_retry_from
      rw [if_pos (by omega), hthrow a (by omega)]
      dsimp only
      rw [if_neg (by omega), ih (a + 1) (by omega)]
      simp [List.range'_succ]

/-- The retry loop when the hook throws on every allowed attempt
(`max_retries = R`, attempts `a, …, R-1` all throw): the last exception
is re-raised after the backoff sleeps. -/
theorem retryFrom_exhausts (e : Enricher) (cfg : EnricherConfig) (t : TeamRow)
    (R : Nat) (errOf : Nat → String)
    (hcfg : cfg.max_retries = R)
    (hthrow : ∀ n, n < R → e.enrich_team t n = .error (errOf n)) :
    ∀ d a, a + d + 1 = R →
      enrich_team_with_retry_from e cfg t a =
        (.error (errOf (R - 1)),
         (List.range' a d).map (fun i => cfg.retry_delay_ms * (i + 1))) := by
  intro d
  induction d with
  | zero =>
      intro a ha
      unfold enrich_team_with_retry_from
      rw [if_pos (by omega), hthrow a (by omega)]
      dsimp only
      rw [if_pos (by omega), show a = R - 1 by omega]
      simp
  | succ d ih =>
      intro a ha
      unfold enrich_team_with_retry_from
      rw [if_pos (by omega), hthrow a (by omega)]
      dsimp only
      rw [if_neg (by omega), ih (a + 1) (by omega)]
      simp [List.range'_succ]

/-- **C2** (confirmed).  With one item whose `enrich_one` hook always
throws, a normal batch still returns `processed = N` and
`success = true`, and every other record's final state — and the
enriched count — are what they would be with the failing item removed
from the batch. -/
theorem enrich_isolates_failing_item (e : Enricher) (cfg : EnricherConfig)
    (teams : List TeamRow) (k : Nat) (errOf : Nat → String)
    (hk : k < teams.length)
    (hav : e.is_available = true)
    (hpre : ∀ l, e.pre_enrich l = .ok ())
    (hpost : ∀ l, e.post_enrich l = .ok ())
    (hthrow : ∀ n, e.enrich_team (teams.get ⟨k, hk⟩) n = .error (errOf n)) :
    (enrich e cfg teams).1.success = true ∧
    (enrich e cfg teams).1.teams_processed = teams.length ∧
    ((enrich e cfg teams).2).eraseIdx k = (enrich e cfg (teams.eraseIdx k)).2 ∧
    (enrich e cfg teams).1.teams_enriched =
      (enrich e cfg (teams.eraseIdx k)).1.teams_enriched := by
  have h1 := enrich_spec e cfg teams hav (hpre _) (hpost _)
  have h2 := enrich_spec e cfg (teams.eraseIdx k) hav (hpre _) (hpost _)
  have hpt : (process_team e cfg (teams.get ⟨k, hk⟩)).1 = false := by
    rw [process_team_throws e cfg _ errOf hthrow]
  refine ⟨?_, ?_, ?_, ?_⟩
  · rw [h1]
  · rw [h1]
  · rw [h1, h2]
    exact map_eraseIdx _ teams k
  · rw [h1, h2]
    exact countP_eraseIdx_false _ teams k hk hpt

/-- Witness for **C2**: a two-record batch whose second record's hook
always throws is processed in full with success. -/
theorem enrich_isolates_failing_item_witness :
    (enrich { enricher_id := "stub",
              enrich_team := fun t _ =>
                if t.name = "bad" then .error "boom" else .ok true,
              now := "T" } {}
        [{ name := "good" }, { name := "bad" }]).1.success = true ∧
    (enrich { enricher_id := "stub",
              enrich_team := fun t _ =>
                if t.name = "bad" then .error "boom" else .ok true,
              now := "T" } {}
        [{ name := "good" }, { name := "bad" }]).1.teams_processed = 2 := by
  have h := enrich_isolates_failing_item
    { enricher_id := "stub",
      enrich_team := fun t _ => if t.name = "bad" then .error "boom" else .ok true,
      now := "T" }
    {} [{ name := "good" }, { name := "bad" }] 1 (fun _ => "boom")
    (by decide) rfl (fun _ => rfl) (fun _ => rfl) (fun _ => rfl)
  exact ⟨h.1, h.2.1⟩

/-- **C3** (confirmed).  A hook that throws on its first `R-1` attempts
and succeeds (with a change) on attempt `R`: with `max_retries = R` the
driver succeeds after backoff sleeps of `retry_delay × 1, …,
retry_delay × (R-1)` and records the item as enriched (the enrichment
marker is applied); with `max_retries = R-1` the retry loop surfaces
the last exception for that item only — the item is left unchanged and
the batch still returns `success = true` with all items processed. -/
theorem enrich_retry_semantics (e : Enricher) (cfg : EnricherConfig)
    (teams : List TeamRow) (k R : Nat) (errOf : Nat → String)
    (hk : k < teams.length) (hR : 2 ≤ R)
    (hav : e.is_available = true)
    (hpre : ∀ l, e.pre_enrich l = .ok ())
    (hpost : ∀ l, e.post_enrich l = .ok ())
    (hthrow : ∀ n, n + 1 < R → e.enrich_team (teams.get ⟨k, hk⟩) n = .error (errOf n))
    (hsucc : e.enrich_team (teams.get ⟨k, hk⟩) (R - 1) = .ok true) :
    enrich_team_with_retry e { cfg with max_retries := R } (teams.get ⟨k, hk⟩) =
      (.ok true, (List.range (R - 1)).map (fun i => cfg.retry_delay_ms * (i + 1))) ∧
    ((enrich e { cfg with max_retries := R } teams).2)[k]? =
      some ((teams.get ⟨k, hk⟩).apply_enrichment e.enricher_id e.now) ∧
    (enrich_team_with_retry e { cfg with max_retries := R - 1 } (teams.get ⟨k, hk⟩)).1 =
      .error (errOf (R - 2)) ∧
    (enrich e { cfg with max_retries := R - 1 } teams).1.success = true ∧
    (enrich e { cfg with max_retries := R - 1 } teams).1.teams_processed = teams.length ∧
    ((enrich e { cfg with max_retries := R - 1 } teams).2)[k]? =
      some (teams.get ⟨k, hk⟩) := by
  set tk := teams.get ⟨k, hk⟩ with htk
  have hr1 : enrich_team_with_retry e { cfg with max_retries := R } tk =
      (.ok true, (List.range (R - 1)).map (fun i => cfg.retry_delay_ms * (i + 1))) := by
    unfold enrich_team_with_retry
    rw [retryFrom_succeeds e _ tk R errOf rfl hthrow hsucc (R - 1) 0 (by omega),
      List.range_eq_range']
  have hproc1 : process_team e { cfg with max_retries := R } tk =
      (true, tk.apply_enrichment e.enricher_id e.now) := by
    unfold process_team
    rw [hr1]
  have hr2 : (enrich_team_with_retry e { cfg with max_retries := R - 1 } tk).1 =
      .error (errOf (R - 2)) := by
    unfold enrich_team_with_retry
    rw [retryFrom_exhausts e _ tk (R - 1) errOf rfl
      (fun n hn => hthrow n (by omega)) (R - 2) 0 (by omega)]
    show Except.error (errOf (R - 1 - 1)) = Except.error (errOf (R - 2))
    rw [show R - 1 - 1 = R - 2 by omega]
  have hproc2 : process_team e { cfg with max_retries := R - 1 } tk = (false, tk) := by
    unfold process_team
    rw [hr2]
  have h1 := enrich_spec e { cfg with max_retries := R } teams hav (hpre _) (hpost _)
  have h2 := enrich_spec e { cfg with max_retries := R - 1 } teams hav (hpre _) (hpost _)
  refine ⟨hr1, ?_, hr2, ?_, ?_, ?_⟩
  · rw [h1, List.getElem?_map, List.getElem?_eq_getElem hk, Option.map_some']
    have hproc1' : process_team e { cfg with max_retries := R } teams[k] =
        (true, tk.apply_enrichment e.enricher_id e.now) := hproc1
    rw [hproc1']
  · rw [h2]
  · rw [h2]
  · rw [h2, List.getElem?_map, List.getElem?_eq_getElem hk, Option.map_some']
    have hproc2' : process_team e { cfg with max_retries := R - 1 } teams[k] =
        (false, tk) := hproc2
    rw [hproc2']

/-- Witness for **C3** with `R = 2`: a hook that throws once and then
succeeds — with `max_retries = 1` the item fails but the batch
succeeds with the record unchanged. -/
theorem enrich_retry_semantics_witness :
    (enrich { enricher_id := "stub",
              enrich_team := fun _ n => if n = 0 then .error "boom" else .ok true,
              now := "T" } { ({} : EnricherConfig) with max_retries := 2 - 1 }
        [{ name := "A" }]).1.success = true ∧
    (enrich { enricher_id := "stub",
              enrich_team := fun _ n => if n = 0 then .error "boom" else .ok true,
              now := "T" } { ({} : EnricherConfig) with max_retries := 2 - 1 }
        [{ name := "A" }]).1.teams_processed = 1 ∧
    ((enrich { enricher_id := "stub",
               enrich_team := fun _ n => if n = 0 then .error "boom" else .ok true,
               now := "T" } { ({} : EnricherConfig) with max_retries := 2 - 1 }
        [{ name := "A" }]).2)[0]? = some { name := "A" } := by
  have h := enrich_retry_semantics
    { enricher_id := "stub",
      enrich_team := fun _ n => if n = 0 then .error "boom" else .ok true,
      now := "T" }
    {} [{ name := "A" }] 0 2 (fun _ => "boom")
    (by decide) (by omega) rfl (fun _ => rfl) (fun _ => rfl)
    (fun n hn => by
      have hn0 : n = 0 := by omega
      subst hn0
      rfl)
    rfl
  exact ⟨h.2.2.2.1, h.2.2.2.2.1, h.2.2.2.2.2⟩

/-! ## Association-list and progress-initialisation facts -/

theorem alistGet_cons {α : Type} (a : String) (b : α) (rest : List (String × α))
    (k : String) :
    alistGet k ((a, b) :: rest) = if a = k then some b else alistGet k rest := rfl

theorem alistGet_set_self {α : Type} (k : String) (v : α) (l : List (String × α)) :
    alistGet k (alistSet k v l) = some v := by
  simp [alistGet, alistSet]

theorem alistGet_filter_ne {α : Type} (k k' : String) (h : k' ≠ k) :
    ∀ l : List (String × α),
      alistGet k' (l.filter (fun p => p.1 ≠ k)) = alistGet k' l := by
  intro l
  induction l with
  | nil => rfl
  | cons p rest ih =>
      obtain ⟨a, b⟩ := p
      by_cases hak : a = k
      · rw [show ((a, b) :: rest).filter (fun p => p.1 ≠ k) =
            rest.filter (fun p => p.1 ≠ k) by simp [List.filter_cons, hak]]
        rw [ih, alistGet_cons, if_neg (fun hh : a = k' => h (hak ▸ hh ▸ rfl))]
      · rw [show ((a, b) :: rest).filter (fun p => p.1 ≠ k) =
            (a, b) :: rest.filter (fun p => p.1 ≠ k) by simp [List.filter_cons, hak]]
        rw [alistGet_cons, alistGet_cons]
        by_cases hak' : a = k'
        · rw [if_pos hak', if_pos hak']
        · rw [if_neg hak', if_neg hak', ih]

theorem alistGet_set_ne {α : Type} (k k' : String) (v : α) (l : List (String × α))
    (h : k' ≠ k) : alistGet k' (alistSet k v l) = alistGet k' l := by
  unfold alistSet
  rw [alistGet_cons, if_neg (fun hh : k = k' => h hh.symm)]
  exact alistGet_filter_ne k k' h l

theorem alistGet_append {α : Type} (k : String) :
    ∀ l1 l2 : List (String × α),
      alistGet k (l1 ++ l2) =
        if (alistGet k l1).isSome then alistGet k l1 else alistGet k l2 := by
  intro l1 l2
  induction l1 with
  | nil => simp [alistGet]
  | cons p rest ih =>
      obtain ⟨a, b⟩ := p
      rw [List.cons_append, alistGet_cons, alistGet_cons]
      by_cases ha : a = k
      · rw [if_pos ha, if_pos ha]
        rfl
      · rw [if_neg ha, if_neg ha, ih]

theorem alistGet_isSome_iff {α : Type} (k : String) :
    ∀ l : List (String × α), (alistGet k l).isSome ↔ k ∈ l.map Prod.fst := by
  intro l
  induction l with
  | nil => simp [alistGet]
  | cons p rest ih =>
      obtain ⟨a, b⟩ := p
      rw [alistGet_cons]
      by_cases ha : a = k
      · subst ha
        simp
      · rw [if_neg ha]
        simp only [List.map_cons, List.mem_cons]
        rw [ih]
        constructor
        · intro hm
          exact Or.inr hm
        · rintro (hm | hm)
          · exact absurd hm.symm ha
          · exact hm

/-- The `__post_init__` fold, characterised against its accumulator:
an id already bound keeps its first binding, and each requested id gets
the default pending sub-record. -/
theorem initProgress_fold_get (rn : String → Option String) :
    ∀ (ids : List String) (acc : List (String × EnrichmentTaskProgress)) (eid : String),
      alistGet eid
        (ids.foldl
          (fun acc eid2 =>
            if (alistGet eid2 acc).isSome then acc
            else acc ++ [(eid2, { enricher_id := eid2,
                                  enricher_name := (rn eid2).getD eid2 })]) acc) =
        match alistGet eid acc with
        | some p => some p
        | Option.none =>
            if eid ∈ ids then
              some { enricher_id := eid, enricher_name := (rn eid).getD eid }
            else Option.none := by
  intro ids
  induction ids with
  | nil =>
      intro acc eid
      rw [List.foldl_nil]
      cases hacc : alistGet eid acc with
      | some p => rfl
      | none => simp
  | cons id0 rest ih =>
      intro acc eid
      rw [List.foldl_cons]
      by_cases h0 : (alistGet id0 acc).isSome
      · rw [if_pos h0, ih]
        cases hacc : alistGet eid acc with
        | some p => rfl
        | none =>
            have hne : eid ≠ id0 := by
              intro hh
              rw [← hh] at h0
              rw [hacc] at h0
              simp at h0
            simp [List.mem_cons, hne]
      · rw [if_neg h0, ih]
        cases hacc : alistGet eid acc with
        | some p =>
            rw [alistGet_append, if_pos (by rw [hacc]; rfl), hacc]
        | none =>
            rw [alistGet_append, if_neg (by rw [hacc]; simp)]
            by_cases heq : eid = id0
            · subst heq
              simp [alistGet]
            · rw [show alistGet eid [(id0,
                  ({ enricher_id := id0,
                     enricher_name := (rn id0).getD id0 } : EnrichmentTaskProgress))] =
                  Option.none from by
                rw [alistGet_cons, if_neg (fun hh : id0 = eid => heq hh.symm)]
                rfl]
              simp [List.mem_cons, heq]

/-- The progress map of a fresh task: exactly one pending sub-record
per requested enricher id. -/
theorem initProgress_get (rn : String → Option String) (ids : List String) (eid : String) :
    alistGet eid (initProgress rn ids) =
      if eid ∈ ids then
        some { enricher_id := eid, enricher_name := (rn eid).getD eid }
      else Option.none := by
  unfold initProgress
  rw [initProgress_fold_get]
  rfl

/-- The keys of the fresh progress map have no duplicates. -/
theorem initProgress_keys_nodup (rn : String → Option String) :
    ∀ (ids : List String) (acc : List (String × EnrichmentTaskProgress)),
      (acc.map Prod.fst).Nodup →
      ((ids.foldl
          (fun acc eid2 =>
            if (alistGet eid2 acc).isSome then acc
            else acc ++ [(eid2, { enricher_id := eid2,
                                  enricher_name := (rn eid2).getD eid2 })]) acc).map
        Prod.fst).Nodup := by
  intro ids
  induction ids with
  | nil => intro acc h; simpa using h
  | cons id0 rest ih =>
      intro acc h
      rw [List.foldl_cons]
      by_cases h0 : (alistGet id0 acc).isSome
      · rw [if_pos h0]
        exact ih acc h
      · rw [if_neg h0]
        apply ih
        rw [List.map_append]
        rw [List.nodup_append]
        refine ⟨h, by simp, ?_⟩
        intro a ha
        simp only [List.map_cons, List.map_nil, List.mem_singleton]
        intro hb
        subst hb
        rw [← alistGet_isSome_iff] at ha
        exact h0 ha

/-- **C7** (confirmed).  The task state machine: a fresh task is
`PENDING` with exactly one `"pending"` sub-record per requested
enricher id; `mark_completed` with no error yields `COMPLETED` and with
an error `FAILED` carrying that error; in the same step the task leaves
the active map and is prepended to a history truncated to the fixed
cap (oldest evicted); `cancel` on a task that is already terminal (not
in the active map, by the maintained invariant) returns `false` and
changes nothing, while `cancel` on an active, non-terminal task yields
`CANCELLED` and moves it to history the same way. -/
theorem task_lifecycle :
    (∀ (m : EnrichmentTaskManager) (tid sid sn : String) (ids : List String)
        (tt : Nat) (rn : String → Option String) (ca : String) (t : EnrichmentTask),
      storeGet (create_task m tid sid sn ids tt rn ca) tid = some t →
        t.status = .pending ∧ (t.progress.map Prod.fst).Nodup ∧
        (∀ eid, alistGet eid t.progress =
          if eid ∈ ids then
            some { enricher_id := eid, enricher_name := (rn eid).getD eid }
          else Option.none)) ∧
    (∀ (m : EnrichmentTaskManager) (tid : String) (t : EnrichmentTask) (now : String),
      get_task m tid = some t → m.tasks.Nodup →
        storeGet (mark_task_completed m tid Option.none now) tid =
          some { t with status := .completed, completed_at := some now,
                        error := Option.none } ∧
        tid ∉ (mark_task_completed m tid Option.none now).tasks ∧
        (mark_task_completed m tid Option.none now).task_history =
          (tid :: m.task_history).take m.max_history) ∧
    (∀ (m : EnrichmentTaskManager) (tid : String) (t : EnrichmentTask) (e now : String),
      get_task m tid = some t → m.tasks.Nodup →
        storeGet (mark_task_completed m tid (some e) now) tid =
          some { t with status := .failed, completed_at := some now, error := some e } ∧
        tid ∉ (mark_task_completed m tid (some e) now).tasks) ∧
    (∀ (m : EnrichmentTaskManager) (tid : String) (t : EnrichmentTask) (now : String),
      WellFormedMgr m → storeGet m tid = some t → t.status.isTerminal = true →
        cancel_task m tid now = (m, false)) ∧
    (∀ (m : EnrichmentTaskManager) (tid : String) (t : EnrichmentTask) (now : String),
      get_task m tid = some t → m.tasks.Nodup →
        (cancel_task m tid now).2 = true ∧
        storeGet (cancel_task m tid now).1 tid =
          some { t with status := .cancelled, completed_at := some now } ∧
        tid ∉ (cancel_task m tid now).1.tasks ∧
        (cancel_task m tid now).1.task_history =
          (tid :: m.task_history).take m.max_history) := by
  have hmem_of_get : ∀ (m : EnrichmentTaskManager) (tid : String) (t : EnrichmentTask),
      get_task m tid = some t → tid ∈ m.tasks ∧ storeGet m tid = some t := by
    intro m tid t h
    unfold get_task at h
    by_cases hm : tid ∈ m.tasks
    · rw [if_pos hm] at h
      exact ⟨hm, h⟩
    · rw [if_neg hm] at h
      exact absurd h (by simp)
  refine ⟨?_, ?_, ?_, ?_, ?_⟩
  · intro m tid sid sn ids tt rn ca t h
    unfold create_task storeGet at h
    rw [alistGet_cons, if_pos rfl] at h
    injection h with h
    subst h
    refine ⟨rfl, ?_, ?_⟩
    · exact initProgress_keys_nodup rn ids [] (by simp)
    · intro eid
      exact initProgress_get rn ids eid
  · intro m tid t now h hnd
    obtain ⟨hmem, hsg⟩ := hmem_of_get m tid t h
    unfold mark_task_completed
    rw [h]
    dsimp only
    unfold move_to_history
    rw [if_pos (show tid ∈ (storeSet m tid _).tasks from hmem)]
    refine ⟨?_, ?_, ?_⟩
    · unfold storeGet storeSet
      dsimp only
      rw [alistGet_set_self]
      rfl
    · dsimp only
      exact hnd.not_mem_erase
    · rfl
  · intro m tid t e now h hnd
    obtain ⟨hmem, hsg⟩ := hmem_of_get m tid t h
    unfold mark_task_completed
    rw [h]
    dsimp only
    unfold move_to_history
    rw [if_pos (show tid ∈ (storeSet m tid _).tasks from hmem)]
    refine ⟨?_, ?_⟩
    · unfold storeGet storeSet
      dsimp only
      rw [alistGet_set_self]
      rfl
    · dsimp only
      exact hnd.not_mem_erase
  · intro m tid t now hwf hsg hterm
    have hnmem : tid ∉ m.tasks := by
      intro hmem
      have hfalse := hwf tid t hmem hsg
      rw [hterm] at hfalse
      exact absurd hfalse (by simp)
    unfold cancel_task get_task
    rw [if_neg hnmem]
  · intro m tid t now h hnd
    obtain ⟨hmem, hsg⟩ := hmem_of_get m tid t h
    unfold cancel_task
    rw [h]
    dsimp only
    unfold move_to_history
    rw [if_pos (show tid ∈ (storeSet m tid _).tasks from hmem)]
    refine ⟨rfl, ?_, ?_, rfl⟩
    · unfold storeGet storeSet
      dsimp only
      rw [alistGet_set_self]
    · dsimp only
      exact hnd.not_mem_erase

/-- Witness for **C7**: cancelling an already-completed task (which
the manager has moved out of the active map) is a no-op returning
`false`. -/
theorem task_lifecycle_witness :
    cancel_task
      { store := [("t1", { id := "t1", scraper_id := "nfl", scraper_name := "NFL",
                           enricher_ids := ["geo"], status := .completed })],
        tasks := [], task_history := ["t1"] } "t1" "now" =
    ({ store := [("t1", { id := "t1", scraper_id := "nfl", scraper_name := "NFL",
                          enricher_ids := ["geo"], status := .completed })],
       tasks := [], task_history := ["t1"] }, false) :=
  task_lifecycle.2.2.2.1
    { store := [("t1", { id := "t1", scraper_id := "nfl", scraper_name := "NFL",
                         enricher_ids := ["geo"], status := .completed })],
      tasks := [], task_history := ["t1"] } "t1"
    { id := "t1", scraper_id := "nfl", scraper_name := "NFL",
      enricher_ids := ["geo"], status := .completed } "now"
    (fun tid _t hmem _ => absurd hmem (List.not_mem_nil tid)) rfl rfl

/-! ## Per-operation facts used by the run-loop inductions -/

theorem update_task_progress_spec (m : EnrichmentTaskManager) (tid eid : String)
    (upd : EnrichmentTaskProgress → EnrichmentTaskProgress) :
    (update_task_progress m tid eid upd).tasks = m.tasks ∧
    (update_task_progress m tid eid upd).task_history = m.task_history ∧
    (∀ t, storeGet m tid = some t →
      ∃ t', storeGet (update_task_progress m tid eid upd) tid = some t' ∧
        t'.status = t.status ∧ t'.diff = t.diff ∧
        t'.before_snapshot = t.before_snapshot ∧
        (∀ eid2, eid2 ≠ eid → alistGet eid2 t'.progress = alistGet eid2 t.progress) ∧
        (∀ p, alistGet eid t.progress = some p → tid ∈ m.tasks →
          alistGet eid t'.progress = some (upd p))) := by
  unfold update_task_progress
  cases hg : get_task m tid with
  | none =>
      refine ⟨rfl, rfl, ?_⟩
      intro t ht
      refine ⟨t, ht, rfl, rfl, rfl, fun _ _ => rfl, ?_⟩
      intro p hp hmem
      unfold get_task at hg
      rw [if_pos hmem, ht] at hg
      exact absurd hg (by simp)
  | some task =>
      have hsg : storeGet m tid = some task := by
        unfold get_task at hg
        by_cases hm : tid ∈ m.tasks
        · rw [if_pos hm] at hg
          exact hg
        · rw [if_neg hm] at hg
          exact absurd hg (by simp)
      dsimp only
      cases ha : alistGet eid task.progress with
      | none =>
          refine ⟨rfl, rfl, ?_⟩
          intro t ht
          refine ⟨t, ht, rfl, rfl, rfl, fun _ _ => rfl, ?_⟩
          intro p hp _
          rw [ht] at hsg
          injection hsg with hsg
          rw [← hsg] at ha
          rw [hp] at ha
          exact absurd ha (by simp)
      | some p0 =>
          refine ⟨rfl, rfl, ?_⟩
          intro t ht
          rw [ht] at hsg
          injection hsg with hsg
          subst hsg
          refine ⟨{ t with
              progress := alistSet eid (upd p0) t.progress,
              teams_enriched := ((alistSet eid (upd p0) t.progress).map
                (fun q => q.2.teams_enriched)).sum }, ?_, rfl, rfl, rfl, ?_, ?_⟩
          · unfold storeGet storeSet
            dsimp only
            rw [alistGet_set_self]
          · intro eid2 hne
            dsimp only
            exact alistGet_set_ne eid eid2 _ _ hne
          · intro p hp _
            rw [hp] at ha
            injection ha with ha
            subst ha
            dsimp only
            rw [alistGet_set_self]

theorem mark_task_running_spec (m : EnrichmentTaskManager) (tid now : String) :
    (mark_task_running m tid now).tasks = m.tasks ∧
    (mark_task_running m tid now).task_history = m.task_history ∧
    (∀ t, storeGet m tid = some t → tid ∈ m.tasks →
      storeGet (mark_task_running m tid now) tid =
        some { t with status := .running, started_at := some now }) := by
  unfold mark_task_running
  cases hg : get_task m tid with
  | none =>
      refine ⟨rfl, rfl, ?_⟩
      intro t ht hmem
      unfold get_task at hg
      rw [if_pos hmem, ht] at hg
      exact absurd hg (by simp)
  | some task =>
      refine ⟨rfl, rfl, ?_⟩
      intro t ht hmem
      unfold get_task at hg
      rw [if_pos hmem, ht] at hg
      injection hg with hg
      subst hg
      unfold storeGet storeSet
      dsimp only
      rw [alistGet_set_self]

theorem set_task_snapshot_spec (m : EnrichmentTaskManager) (tid : String)
    (td : List TeamDict) :
    (set_task_snapshot m tid td).tasks = m.tasks ∧
    (set_task_snapshot m tid td).task_history = m.task_history ∧
    (∀ t, storeGet m tid = some t →
      storeGet (set_task_snapshot m tid td) tid =
        some { t with teams_total := td.length,
                      before_snapshot := some (build_before_snapshot td) }) := by
  unfold set_task_snapshot
  cases hg : storeGet m tid with
  | none =>
      refine ⟨rfl, rfl, ?_⟩
      intro t ht
      exact Option.noConfusion ht
  | some task =>
      dsimp only
      refine ⟨rfl, rfl, ?_⟩
      intro t ht
      injection ht with ht
      subst ht
      unfold storeGet storeSet
      dsimp only
      rw [alistGet_set_self]

theorem set_diff_if_snapshot_tasks (env : RunEnv) (m : EnrichmentTaskManager)
    (tid : String) :
    (set_diff_if_snapshot env m tid).tasks = m.tasks := by
  unfold set_diff_if_snapshot
  cases hg : storeGet m tid with
  | none => rfl
  | some t =>
      dsimp only
      cases hbs : t.before_snapshot with
      | none => rfl
      | some snap =>
          dsimp only
          by_cases hemp : snap.isEmpty
          · rw [if_pos hemp]
          · rw [if_neg hemp]
            rfl

theorem cancel_task_diff_eq (m : EnrichmentTaskManager) (tid now : String) :
    ∀ t', storeGet (cancel_task m tid now).1 tid = some t' →
      ∃ t, storeGet m tid = some t ∧ t'.diff = t.diff := by
  unfold cancel_task
  cases hg : get_task m tid with
  | none =>
      intro t' ht'
      exact ⟨t', ht', rfl⟩
  | some task =>
      have hsg : storeGet m tid = some task := by
        unfold get_task at hg
        by_cases hm : tid ∈ m.tasks
        · rw [if_pos hm] at hg
          exact hg
        · rw [if_neg hm] at hg
          exact absurd hg (by simp)
      intro t' ht'
      dsimp only at ht'
      unfold move_to_history storeGet storeSet at ht'
      dsimp only at ht'
      split at ht' <;>
        · dsimp only at ht'
          rw [alistGet_set_self] at ht'
          injection ht' with ht'
          exact ⟨task, hsg, by rw [← ht']⟩

theorem mark_task_completed_diff_eq (m : EnrichmentTaskManager) (tid : String)
    (err : Option String) (now : String) :
    ∀ t', storeGet (mark_task_completed m tid err now) tid = some t' →
      ∃ t, storeGet m tid = some t ∧ t'.diff = t.diff := by
  unfold mark_task_completed
  cases hg : get_task m tid with
  | none =>
      intro t' ht'
      exact ⟨t', ht', rfl⟩
  | some task =>
      have hsg : storeGet m tid = some task := by
        unfold get_task at hg
        by_cases hm : tid ∈ m.tasks
        · rw [if_pos hm] at hg
          exact hg
        · rw [if_neg hm] at hg
          exact absurd hg (by simp)
      intro t' ht'
      dsimp only at ht'
      unfold move_to_history storeGet storeSet at ht'
      dsimp only at ht'
      split at ht' <;>
        · dsimp only at ht'
          rw [alistGet_set_self] at ht'
          injection ht' with ht'
          exact ⟨task, hsg, by rw [← ht']⟩

theorem mark_task_running_diff_eq (m : EnrichmentTaskManager) (tid now : String) :
    ∀ t', storeGet (mark_task_running m tid now) tid = some t' →
      ∃ t, storeGet m tid = some t ∧ t'.diff = t.diff := by
  unfold mark_task_running
  cases hg : get_task m tid with
  | none =>
      intro t' ht'
      exact ⟨t', ht', rfl⟩
  | some task =>
      have hsg : storeGet m tid = some task := by
        unfold get_task at hg
        by_cases hm : tid ∈ m.tasks
        · rw [if_pos hm] at hg
          exact hg
        · rw [if_neg hm] at hg
          exact absurd hg (by simp)
      intro t' ht'
      dsimp only at ht'
      unfold storeGet storeSet at ht'
      dsimp only at ht'
      rw [alistGet_set_self] at ht'
      injection ht' with ht'
      exact ⟨task, hsg, by rw [← ht']⟩

theorem set_task_snapshot_diff_eq (m : EnrichmentTaskManager) (tid : String)
    (td : List TeamDict) :
    ∀ t', storeGet (set_task_snapshot m tid td) tid = some t' →
      ∃ t, storeGet m tid = some t ∧ t'.diff = t.diff := by
  unfold set_task_snapshot
  cases hg : storeGet m tid with
  | none =>
      intro t' ht'
      dsimp only at ht'
      rw [hg] at ht'
      exact Option.noConfusion ht'
  | some task =>
      intro t' ht'
      dsimp only at ht'
      unfold storeGet storeSet at ht'
      dsimp only at ht'
      rw [alistGet_set_self] at ht'
      injection ht' with ht'
      exact ⟨task, rfl, by rw [← ht']⟩

theorem mark_task_completed_none_status (m : EnrichmentTaskManager) (tid now : String)
    (hmem : tid ∈ m.tasks) :
    ∀ t', storeGet (mark_task_completed m tid Option.none now) tid = some t' →
      t'.status = EnrichmentTaskStatus.completed := by
  unfold mark_task_completed
  cases hg : get_task m tid with
  | none =>
      intro t' ht'
      unfold get_task at hg
      rw [if_pos hmem] at hg
      dsimp only at ht'
      rw [hg] at ht'
      exact Option.noConfusion ht'
  | some task =>
      intro t' ht'
      dsimp only at ht'
      unfold move_to_history storeGet storeSet at ht'
      dsimp only at ht'
      split at ht' <;>
        · dsimp only at ht'
          rw [alistGet_set_self] at ht'
          injection ht' with ht'
          rw [← ht']
          rfl

theorem update_task_progress_diff_eq (m : EnrichmentTaskManager) (tid eid : String)
    (upd : EnrichmentTaskProgress → EnrichmentTaskProgress) :
    ∀ t', storeGet (update_task_progress m tid eid upd) tid = some t' →
      ∃ t, storeGet m tid = some t ∧ t'.diff = t.diff := by
  unfold update_task_progress
  cases hg : get_task m tid with
  | none =>
      intro t' ht'
      exact ⟨t', ht', rfl⟩
  | some task =>
      have hsg : storeGet m tid = some task := by
        unfold get_task at hg
        by_cases hm : tid ∈ m.tasks
        · rw [if_pos hm] at hg
          exact hg
        · rw [if_neg hm] at hg
          exact absurd hg (by simp)
      dsimp only
      cases ha : alistGet eid task.progress with
      | none =>
          intro t' ht'
          exact ⟨t', ht', rfl⟩
      | some p0 =>
          intro t' ht'
          unfold storeGet storeSet at ht'
          dsimp only at ht'
          rw [alistGet_set_self] at ht'
          injection ht' with ht'
          exact ⟨task, hsg, by rw [← ht']⟩

/-- Transport of "the task has no diff yet" across one state-modifying
step that preserves the diff field. -/
theorem diff_none_transport (m m' : EnrichmentTaskManager) (tid : String)
    (hstep : ∀ t', storeGet m' tid = some t' →
      ∃ t, storeGet m tid = some t ∧ t'.diff = t.diff)
    (hyp : ∀ t, storeGet m tid = some t → t.diff = Option.none) :
    ∀ t, storeGet m' tid = some t → t.diff = Option.none := by
  intro t ht
  obtain ⟨t0, ht0, hde⟩ := hstep t ht
  rw [hde]
  exact hyp t0 ht0

/-- The enricher loop never writes the diff field. -/
theorem runLoop_diff_none (env : RunEnv) (teamsLen : Nat) (task_id : String) :
    ∀ (l : List (Nat × String)) (m : EnrichmentTaskManager),
      (∀ t, storeGet m task_id = some t → t.diff = Option.none) →
      ∀ t, storeGet (runLoop env teamsLen task_id m l).1 task_id = some t →
        t.diff = Option.none := by
  intro l
  induction l with
  | nil =>
      intro m hyp
      exact hyp
  | cons p rest ih =>
      obtain ⟨i, eid⟩ := p
      intro m hyp
      unfold runLoop
      dsimp only
      split
      · exact hyp
      · split
        · exact ih _ (diff_none_transport _ _ _
            (update_task_progress_diff_eq m task_id eid _) hyp)
        · split
          · exact ih _ (diff_none_transport _ _ _
              (update_task_progress_diff_eq m task_id eid _) hyp)
          · split
            · exact ih _ (diff_none_transport _ _ _
                (update_task_progress_diff_eq _ task_id eid _)
                (diff_none_transport _ _ _
                  (update_task_progress_diff_eq m task_id eid _) hyp))
            · exact ih _ (diff_none_transport _ _ _
                (update_task_progress_diff_eq _ task_id eid _)
                (diff_none_transport _ _ _
                  (update_task_progress_diff_eq m task_id eid _) hyp))
            · exact diff_none_transport _ _ _
                (update_task_progress_diff_eq _ task_id eid _)
                (diff_none_transport _ _ _
                  (cancel_task_diff_eq _ task_id env.now)
                  (diff_none_transport _ _ _
                    (update_task_progress_diff_eq m task_id eid _) hyp))

/-- When the loop ends without a `CancelledError`, the active map is
untouched (in particular the task is still active). -/
theorem runLoop_tasks_of_not_cancelled (env : RunEnv) (teamsLen : Nat) (task_id : String) :
    ∀ (l : List (Nat × String)) (m : EnrichmentTaskManager),
      (runLoop env teamsLen task_id m l).2.2 = false →
      (runLoop env teamsLen task_id m l).1.tasks = m.tasks := by
  intro l
  induction l with
  | nil =>
      intro m _
      rfl
  | cons p rest ih =>
      obtain ⟨i, eid⟩ := p
      intro m
      unfold runLoop
      dsimp only
      split
      · intro _
        rfl
      · split
        · intro hc
          rw [ih _ hc, (update_task_progress_spec m task_id eid _).1]
        · split
          · intro hc
            rw [ih _ hc, (update_task_progress_spec m task_id eid _).1]
          · split
            · intro hc
              rw [ih _ hc, (update_task_progress_spec _ task_id eid _).1,
                (update_task_progress_spec m task_id eid _).1]
            · intro hc
              rw [ih _ hc, (update_task_progress_spec _ task_id eid _).1,
                (update_task_progress_spec m task_id eid _).1]
            · intro hc
              exact absurd hc (by simp)

/-- **C9**.  The diff field is populated only on successful completion:
whatever the run does, an active-or-archived task whose diff is
populated at the end of `_run_enrichment_task` has status `COMPLETED` —
a run ending `CANCELLED` (cancel before start, or a `CancelledError`
during an enrich call) or `FAILED` (no data file, save error) never
writes the diff, which is written only in the success path right before
`mark_task_completed(task_id)` with no error. -/
theorem diff_only_on_completed (env : RunEnv) (m0 : EnrichmentTaskManager)
    (task_id : String)
    (h0 : ∀ t0, storeGet m0 task_id = some t0 → t0.diff = Option.none) :
    ∀ t, storeGet (run_enrichment_task env m0 task_id).1 task_id = some t →
      t.diff ≠ Option.none → t.status = EnrichmentTaskStatus.completed := by
  unfold run_enrichment_task
  dsimp only
  split
  · intro t ht hne
    exact absurd (h0 t ht) hne
  · rename_i task htask
    have hmem : task_id ∈ m0.tasks := by
      unfold get_task at htask
      by_cases hm : task_id ∈ m0.tasks
      · exact hm
      · rw [if_neg hm] at htask
        exact Option.noConfusion htask
    split
    · intro t ht hne
      obtain ⟨t0, ht0, hde⟩ := cancel_task_diff_eq m0 task_id env.now t ht
      exact absurd (hde.trans (h0 t0 ht0)) hne
    · split
      · intro t ht hne
        obtain ⟨t1, ht1, hd1⟩ := mark_task_completed_diff_eq _ task_id _ env.now t ht
        obtain ⟨t0, ht0, hd0⟩ := mark_task_running_diff_eq m0 task_id env.now t1 ht1
        exact absurd (hd1.trans (hd0.trans (h0 t0 ht0))) hne
      · rename_i teams_data hloaded
        have hyp2 : ∀ t, storeGet
            (set_task_snapshot (mark_task_running m0 task_id env.now) task_id teams_data)
            task_id = some t → t.diff = Option.none :=
          diff_none_transport _ _ _
            (set_task_snapshot_diff_eq _ task_id teams_data)
            (diff_none_transport _ _ _ (mark_task_running_diff_eq m0 task_id env.now) h0)
        split
        · intro t ht hne
          obtain ⟨t2, ht2, hd2⟩ := mark_task_completed_diff_eq _ task_id _ env.now t ht
          exact absurd (hd2.trans
            (runLoop_diff_none env teams_data.length task_id _ _ hyp2 t2 ht2)) hne
        · rename_i hcanc
          have hcf : (runLoop env teams_data.length task_id
              (set_task_snapshot (mark_task_running m0 task_id env.now) task_id teams_data)
              task.enricher_ids.enum).2.2 = false := by
            revert hcanc
            cases (runLoop env teams_data.length task_id
                (set_task_snapshot (mark_task_running m0 task_id env.now) task_id teams_data)
                task.enricher_ids.enum).2.2
            · intro _
              rfl
            · intro hcanc
              exact absurd rfl hcanc
          split
          · intro t ht hne
            obtain ⟨t2, ht2, hd2⟩ := mark_task_completed_diff_eq _ task_id _ env.now t ht
            exact absurd (hd2.trans
              (runLoop_diff_none env teams_data.length task_id _ _ hyp2 t2 ht2)) hne
          · intro t ht _
            refine mark_task_completed_none_status _ task_id env.now ?_ t ht
            rw [set_diff_if_snapshot_tasks,
              runLoop_tasks_of_not_cancelled env teams_data.length task_id
                task.enricher_ids.enum _ hcf,
              (set_task_snapshot_spec (mark_task_running m0 task_id env.now)
                task_id teams_data).1,
              (mark_task_running_spec m0 task_id env.now).1]
            exact hmem

theorem diff_only_on_completed_witness :
    storeGet (run_enrichment_task c9_env c9_m0 "t1").1 "t1" = some c9_final ∧
    c9_final.diff ≠ Option.none ∧
    c9_final.status = EnrichmentTaskStatus.completed :=
  ⟨rfl, by simp [c9_final],
   diff_only_on_completed c9_env c9_m0 "t1"
     (fun t0 ht0 => by
       have h2 : (some c9_init : Option EnrichmentTask) = some t0 := by
         rw [← ht0]
         rfl
       injection h2 with h2
       rw [← h2]
       rfl)
     c9_final rfl (by simp [c9_final])⟩

theorem update_task_progress_status_eq (m : EnrichmentTaskManager) (tid eid : String)
    (upd : EnrichmentTaskProgress → EnrichmentTaskProgress) :
    ∀ t', storeGet (update_task_progress m tid eid upd) tid = some t' →
      ∃ t, storeGet m tid = some t ∧ t'.status = t.status := by
  unfold update_task_progress
  cases hg : get_task m tid with
  | none =>
      intro t' ht'
      exact ⟨t', ht', rfl⟩
  | some task =>
      have hsg : storeGet m tid = some task := by
        unfold get_task at hg
        by_cases hm : tid ∈ m.tasks
        · rw [if_pos hm] at hg
          exact hg
        · rw [if_neg hm] at hg
          exact absurd hg (by simp)
      dsimp only
      cases ha : alistGet eid task.progress with
      | none =>
          intro t' ht'
          exact ⟨t', ht', rfl⟩
      | some p0 =>
          intro t' ht'
          unfold storeGet storeSet at ht'
          dsimp only at ht'
          rw [alistGet_set_self] at ht'
          injection ht' with ht'
          exact ⟨task, hsg, by rw [← ht']⟩

/-- Transport of "the active task is not cancelled" across one progress
update. -/
theorem hst_after_update (m : EnrichmentTaskManager) (tid eid : String)
    (upd : EnrichmentTaskProgress → EnrichmentTaskProgress)
    (hst : ∀ t, storeGet m tid = some t → t.status ≠ EnrichmentTaskStatus.cancelled) :
    ∀ t, storeGet (update_task_progress m tid eid upd) tid = some t →
      t.status ≠ EnrichmentTaskStatus.cancelled := by
  intro t ht
  obtain ⟨t0, ht0, hs⟩ := update_task_progress_status_eq m tid eid upd t ht
  rw [hs]
  exact hst t0 ht0

/-- Every event the loop emits carries the slot index of one of the
remaining `(index, enricher_id)` pairs. -/
theorem runLoop_slot_mem (env : RunEnv) (L : Nat) (task_id : String) :
    ∀ (l : List (Nat × String)) (m : EnrichmentTaskManager) (e : RunEvent),
      e ∈ (runLoop env L task_id m l).2.1 → e.slot ∈ l.map Prod.fst := by
  intro l
  induction l with
  | nil =>
      intro m e he
      exact absurd he (by simp [runLoop])
  | cons p rest ih =>
      obtain ⟨i, eid⟩ := p
      intro m e
      unfold runLoop
      dsimp only
      split
      · intro he
        rcases List.mem_cons.mp he with rfl | he
        · exact List.mem_cons_self _ _
        · exact absurd he (by simp)
      · split
        · intro he
          rcases List.mem_cons.mp he with rfl | he
          · exact List.mem_cons_self _ _
          rcases List.mem_cons.mp he with rfl | he
          · exact List.mem_cons_self _ _
          · exact List.mem_cons_of_mem _ (ih _ e he)
        · split
          · intro he
            rcases List.mem_cons.mp he with rfl | he
            · exact List.mem_cons_self _ _
            rcases List.mem_cons.mp he with rfl | he
            · exact List.mem_cons_self _ _
            · exact List.mem_cons_of_mem _ (ih _ e he)
          · split
            · intro he
              rcases List.mem_cons.mp he with rfl | he
              · exact List.mem_cons_self _ _
              rcases List.mem_cons.mp he with rfl | he
              · exact List.mem_cons_self _ _
              rcases List.mem_cons.mp he with rfl | he
              · exact List.mem_cons_self _ _
              · exact List.mem_cons_of_mem _ (ih _ e he)
            · intro he
              rcases List.mem_cons.mp he with rfl | he
              · exact List.mem_cons_self _ _
              rcases List.mem_cons.mp he with rfl | he
              · exact List.mem_cons_self _ _
              rcases List.mem_cons.mp he with rfl | he
              · exact List.mem_cons_self _ _
              · exact List.mem_cons_of_mem _ (ih _ e he)
            · intro he
              rcases List.mem_cons.mp he with rfl | he
              · exact List.mem_cons_self _ _
              rcases List.mem_cons.mp he with rfl | he
              · exact List.mem_cons_self _ _
              rcases List.mem_cons.mp he with rfl | he
              · exact List.mem_cons_self _ _
              · exact absurd he (by simp)

/-- As long as the active task has not been externally cancelled and no
`CancelledError` is delivered, the loop visits every slot (a cooperative
cancellation check happens — and passes — at each one) and does not
abort: processing always continues to the next enricher. -/
theorem runLoop_no_abort (env : RunEnv) (L : Nat) (task_id : String)
    (hnc : ∀ j, env.outcome j ≠ EnrichCallOutcome.cancelledDuring) :
    ∀ (l : List (Nat × String)) (m : EnrichmentTaskManager),
      (∀ t, storeGet m task_id = some t → t.status ≠ EnrichmentTaskStatus.cancelled) →
      (runLoop env L task_id m l).2.2 = false ∧
      ∀ q, q ∈ l → RunEvent.cancelCheck q.1 false ∈ (runLoop env L task_id m l).2.1 := by
  intro l
  induction l with
  | nil =>
      intro m _
      exact ⟨rfl, by simp [runLoop]⟩
  | cons p rest ih =>
      obtain ⟨i, eid⟩ := p
      intro m hst
      unfold runLoop
      dsimp only
      split
      · exfalso
        rename_i hobs
        revert hobs
        cases hm : storeGet m task_id with
        | none =>
            intro hobs
            exact Bool.noConfusion hobs
        | some t =>
            intro hobs
            have h2 : (t.status == EnrichmentTaskStatus.cancelled) = true := hobs
            exact hst t hm (of_decide_eq_true h2)
      · split
        · refine ⟨(ih _ (hst_after_update m task_id eid _ hst)).1, ?_⟩
          intro q hq
          rcases List.mem_cons.mp hq with rfl | hq
          · exact List.mem_cons_self _ _
          · exact List.mem_cons_of_mem _ (List.mem_cons_of_mem _
              ((ih _ (hst_after_update m task_id eid _ hst)).2 q hq))
        · split
          · refine ⟨(ih _ (hst_after_update m task_id eid _ hst)).1, ?_⟩
            intro q hq
            rcases List.mem_cons.mp hq with rfl | hq
            · exact List.mem_cons_self _ _
            · exact List.mem_cons_of_mem _ (List.mem_cons_of_mem _
                ((ih _ (hst_after_update m task_id eid _ hst)).2 q hq))
          · split
            · refine ⟨(ih _ (hst_after_update _ task_id eid _
                (hst_after_update m task_id eid _ hst))).1, ?_⟩
              intro q hq
              rcases List.mem_cons.mp hq with rfl | hq
              · exact List.mem_cons_self _ _
              · exact List.mem_cons_of_mem _ (List.mem_cons_of_mem _
                  (List.mem_cons_of_mem _
                    ((ih _ (hst_after_update _ task_id eid _
                      (hst_after_update m task_id eid _ hst))).2 q hq)))
            · refine ⟨(ih _ (hst_after_update _ task_id eid _
                (hst_after_update m task_id eid _ hst))).1, ?_⟩
              intro q hq
              rcases List.mem_cons.mp hq with rfl | hq
              · exact List.mem_cons_self _ _
              · exact List.mem_cons_of_mem _ (List.mem_cons_of_mem _
                  (List.mem_cons_of_mem _
                    ((ih _ (hst_after_update _ task_id eid _
                      (hst_after_update m task_id eid _ hst))).2 q hq)))
            · rename_i hout
              exact absurd hout (hnc i)

/-- Every enrich call that starts also returns, provided no
`CancelledError` is delivered during a call. -/
theorem runLoop_start_return (env : RunEnv) (L : Nat) (task_id : String)
    (hnc : ∀ j, env.outcome j ≠ EnrichCallOutcome.cancelledDuring) :
    ∀ (l : List (Nat × String)) (m : EnrichmentTaskManager) (i : Nat) (eid : String),
      RunEvent.enrichStart i eid ∈ (runLoop env L task_id m l).2.1 →
      RunEvent.enrichReturn i eid ∈ (runLoop env L task_id m l).2.1 := by
  intro l
  induction l with
  | nil =>
      intro m i eid he
      exact absurd he (by simp [runLoop])
  | cons p rest ih =>
      obtain ⟨j, ej⟩ := p
      intro m i eid
      unfold runLoop
      dsimp only
      split
      · intro he
        rcases List.mem_cons.mp he with he | he
        · exact RunEvent.noConfusion he
        · exact absurd he (by simp)
      · split
        · intro he
          rcases List.mem_cons.mp he with he | he
          · exact RunEvent.noConfusion he
          rcases List.mem_cons.mp he with he | he
          · exact RunEvent.noConfusion he
          · exact List.mem_cons_of_mem _ (List.mem_cons_of_mem _ (ih _ i eid he))
        · split
          · intro he
            rcases List.mem_cons.mp he with he | he
            · exact RunEvent.noConfusion he
            rcases List.mem_cons.mp he with he | he
            · exact RunEvent.noConfusion he
            · exact List.mem_cons_of_mem _ (List.mem_cons_of_mem _ (ih _ i eid he))
          · split
            · intro he
              rcases List.mem_cons.mp he with he | he
              · exact RunEvent.noConfusion he
              rcases List.mem_cons.mp he with he | he
              · injection he with h1 h2
                subst h1
                subst h2
                exact List.mem_cons_of_mem _ (List.mem_cons_of_mem _
                  (List.mem_cons_self _ _))
              rcases List.mem_cons.mp he with he | he
              · exact RunEvent.noConfusion he
              · exact List.mem_cons_of_mem _ (List.mem_cons_of_mem _
                  (List.mem_cons_of_mem _ (ih _ i eid he)))
            · intro he
              rcases List.mem_cons.mp he with he | he
              · exact RunEvent.noConfusion he
              rcases List.mem_cons.mp he with he | he
              · injection he with h1 h2
                subst h1
                subst h2
                exact List.mem_cons_of_mem _ (List.mem_cons_of_mem _
                  (List.mem_cons_self _ _))
              rcases List.mem_cons.mp he with he | he
              · exact RunEvent.noConfusion he
              · exact List.mem_cons_of_mem _ (List.mem_cons_of_mem _
                  (List.mem_cons_of_mem _ (ih _ i eid he)))
            · rename_i hout
              exact absurd hout (hnc j)

/-- Strict sequencing: when the remaining slot indices are strictly
increasing, the enrich call of an earlier slot has *returned* before the
enrich call of any later slot *starts* — the two events occur in that
order in the trace. -/
theorem runLoop_sequential (env : RunEnv) (L : Nat) (task_id : String)
    (hnc : ∀ j, env.outcome j ≠ EnrichCallOutcome.cancelledDuring) :
    ∀ (l : List (Nat × String)) (m : EnrichmentTaskManager),
      (l.map Prod.fst).Pairwise (· < ·) →
      ∀ i1 e1 i2 e2, i1 < i2 →
        RunEvent.enrichStart i1 e1 ∈ (runLoop env L task_id m l).2.1 →
        RunEvent.enrichStart i2 e2 ∈ (runLoop env L task_id m l).2.1 →
        List.Sublist [RunEvent.enrichReturn i1 e1, RunEvent.enrichStart i2 e2]
          (runLoop env L task_id m l).2.1 := by
  intro l
  induction l with
  | nil =>
      intro m _ i1 e1 i2 e2 _ h1 _
      exact absurd h1 (by simp [runLoop])
  | cons p rest ih =>
      obtain ⟨j, ej⟩ := p
      intro m hp
      rw [List.map_cons, List.pairwise_cons] at hp
      obtain ⟨hlt, hp2⟩ := hp
      intro i1 e1 i2 e2 h12
      unfold runLoop
      dsimp only
      split
      · intro h1 _
        rcases List.mem_cons.mp h1 with h1 | h1
        · exact RunEvent.noConfusion h1
        · exact absurd h1 (by simp)
      · split
        · intro h1 h2
          rcases List.mem_cons.mp h1 with h1 | h1
          · exact RunEvent.noConfusion h1
          rcases List.mem_cons.mp h1 with h1 | h1
          · exact RunEvent.noConfusion h1
          rcases List.mem_cons.mp h2 with h2 | h2
          · exact RunEvent.noConfusion h2
          rcases List.mem_cons.mp h2 with h2 | h2
          · exact RunEvent.noConfusion h2
          exact ((ih _ hp2 i1 e1 i2 e2 h12 h1 h2).cons _).cons _
        · split
          · intro h1 h2
            rcases List.mem_cons.mp h1 with h1 | h1
            · exact RunEvent.noConfusion h1
            rcases List.mem_cons.mp h1 with h1 | h1
            · exact RunEvent.noConfusion h1
            rcases List.mem_cons.mp h2 with h2 | h2
            · exact RunEvent.noConfusion h2
            rcases List.mem_cons.mp h2 with h2 | h2
            · exact RunEvent.noConfusion h2
            exact ((ih _ hp2 i1 e1 i2 e2 h12 h1 h2).cons _).cons _
          · split
            · intro h1 h2
              simp only [List.mem_cons] at h1 h2
              rcases h2 with h2 | h2 | h2 | h2
              · exact RunEvent.noConfusion h2
              · injection h2 with hj he
                subst hj
                subst he
                rcases h1 with h1 | h1 | h1 | h1
                · exact RunEvent.noConfusion h1
                · injection h1 with hj1 he1
                  subst hj1
                  exact absurd h12 (Nat.lt_irrefl _)
                · exact RunEvent.noConfusion h1
                · have hsl := runLoop_slot_mem env L task_id rest _ _ h1
                  exact absurd h12 (Nat.lt_asymm (hlt i1 hsl))
              · exact RunEvent.noConfusion h2
              · rcases h1 with h1 | h1 | h1 | h1
                · exact RunEvent.noConfusion h1
                · injection h1 with hj1 he1
                  subst hj1
                  subst he1
                  exact (((List.singleton_sublist.mpr h2).cons₂ _).cons _).cons _
                · exact RunEvent.noConfusion h1
                · exact (((ih _ hp2 i1 e1 i2 e2 h12 h1 h2).cons _).cons _).cons _
            · intro h1 h2
              simp only [List.mem_cons] at h1 h2
              rcases h2 with h2 | h2 | h2 | h2
              · exact RunEvent.noConfusion h2
              · injection h2 with hj he
                subst hj
                subst he
                rcases h1 with h1 | h1 | h1 | h1
                · exact RunEvent.noConfusion h1
                · injection h1 with hj1 he1
                  subst hj1
                  exact absurd h12 (Nat.lt_irrefl _)
                · exact RunEvent.noConfusion h1
                · have hsl := runLoop_slot_mem env L task_id rest _ _ h1
                  exact absurd h12 (Nat.lt_asymm (hlt i1 hsl))
              · exact RunEvent.noConfusion h2
              · rcases h1 with h1 | h1 | h1 | h1
                · exact RunEvent.noConfusion h1
                · injection h1 with hj1 he1
                  subst hj1
                  subst he1
                  exact (((List.singleton_sublist.mpr h2).cons₂ _).cons _).cons _
                · exact RunEvent.noConfusion h1
                · exact (((ih _ hp2 i1 e1 i2 e2 h12 h1 h2).cons _).cons _).cons _
            · rename_i hout
              exact absurd hout (hnc j)

/-- A requested enricher id that is not in the registry produces a
`skipMissing` event for its slot (the loop logs and moves on). -/
theorem runLoop_skip_missing (env : RunEnv) (L : Nat) (task_id : String)
    (hnc : ∀ j, env.outcome j ≠ EnrichCallOutcome.cancelledDuring) :
    ∀ (l : List (Nat × String)) (m : EnrichmentTaskManager),
      (∀ t, storeGet m task_id = some t → t.status ≠ EnrichmentTaskStatus.cancelled) →
      ∀ i eid, (i, eid) ∈ l → env.registry eid = Option.none →
        RunEvent.skipMissing i eid ∈ (runLoop env L task_id m l).2.1 := by
  intro l
  induction l with
  | nil =>
      intro m _ i eid hmem _
      exact absurd hmem (by simp)
  | cons q rest ih =>
      obtain ⟨j, ej⟩ := q
      intro m hst i eid hmem hreg
      unfold runLoop
      dsimp only
      split
      · exfalso
        rename_i hobs
        revert hobs
        cases hm : storeGet m task_id with
        | none =>
            intro hobs
            exact Bool.noConfusion hobs
        | some t =>
            intro hobs
            have h2 : (t.status == EnrichmentTaskStatus.cancelled) = true := hobs
            exact hst t hm (of_decide_eq_true h2)
      · split
        · rcases List.mem_cons.mp hmem with heq | hmem2
          · injection heq with h1 h2
            subst h1
            subst h2
            exact List.mem_cons_of_mem _ (List.mem_cons_self _ _)
          · exact List.mem_cons_of_mem _ (List.mem_cons_of_mem _
              (ih _ (hst_after_update m task_id ej _ hst) i eid hmem2 hreg))
        · rename_i avail havail
          split
          · rcases List.mem_cons.mp hmem with heq | hmem2
            · injection heq with h1 h2
              subst h1
              subst h2
              exact Option.noConfusion (havail.symm.trans hreg)
            · exact List.mem_cons_of_mem _ (List.mem_cons_of_mem _
                (ih _ (hst_after_update m task_id ej _ hst) i eid hmem2 hreg))
          · split
            · rcases List.mem_cons.mp hmem with heq | hmem2
              · injection heq with h1 h2
                subst h1
                subst h2
                exact Option.noConfusion (havail.symm.trans hreg)
              · exact List.mem_cons_of_mem _ (List.mem_cons_of_mem _
                  (List.mem_cons_of_mem _
                    (ih _ (hst_after_update _ task_id ej _
                      (hst_after_update m task_id ej _ hst)) i eid hmem2 hreg)))
            · rcases List.mem_cons.mp hmem with heq | hmem2
              · injection heq with h1 h2
                subst h1
                subst h2
                exact Option.noConfusion (havail.symm.trans hreg)
              · exact List.mem_cons_of_mem _ (List.mem_cons_of_mem _
                  (List.mem_cons_of_mem _
                    (ih _ (hst_after_update _ task_id ej _
                      (hst_after_update m task_id ej _ hst)) i eid hmem2 hreg)))
            · rename_i hout
              exact absurd hout (hnc j)

/-- The loop never touches the progress sub-record of an enricher id
that is not among the remaining slots. -/
theorem runLoop_preserves_progress (env : RunEnv) (L : Nat) (task_id eid : String)
    (hnc : ∀ j, env.outcome j ≠ EnrichCallOutcome.cancelledDuring) :
    ∀ (l : List (Nat × String)) (m : EnrichmentTaskManager),
      (∀ q, q ∈ l → q.2 ≠ eid) →
      ∀ t, storeGet m task_id = some t →
      ∀ t', storeGet (runLoop env L task_id m l).1 task_id = some t' →
        alistGet eid t'.progress = alistGet eid t.progress := by
  intro l
  induction l with
  | nil =>
      intro m _ t ht t' ht'
      have h2 : (some t : Option EnrichmentTask) = some t' := ht.symm.trans ht'
      injection h2 with h2
      rw [← h2]
  | cons q rest ih =>
      obtain ⟨j, ej⟩ := q
      intro m hne t ht
      have hje : ej ≠ eid := hne (j, ej) (List.mem_cons_self _ _)
      have hne2 : ∀ q, q ∈ rest → q.2 ≠ eid := fun q hq => hne q (List.mem_cons_of_mem _ hq)
      unfold runLoop
      dsimp only
      split
      · intro t' ht'
        have h2 : (some t : Option EnrichmentTask) = some t' := ht.symm.trans ht'
        injection h2 with h2
        rw [← h2]
      · split
        · intro t' ht'
          obtain ⟨t1, ht1, _, _, _, hother, _⟩ :=
            (update_task_progress_spec m task_id ej _).2.2 t ht
          exact (ih _ hne2 t1 ht1 t' ht').trans (hother eid (Ne.symm hje))
        · split
          · intro t' ht'
            obtain ⟨t1, ht1, _, _, _, hother, _⟩ :=
              (update_task_progress_spec m task_id ej _).2.2 t ht
            exact (ih _ hne2 t1 ht1 t' ht').trans (hother eid (Ne.symm hje))
          · split
            · intro t' ht'
              obtain ⟨t1, ht1, _, _, _, hother1, _⟩ :=
                (update_task_progress_spec m task_id ej _).2.2 t ht
              obtain ⟨t2, ht2, _, _, _, hother2, _⟩ :=
                (update_task_progress_spec _ task_id ej _).2.2 t1 ht1
              exact (ih _ hne2 t2 ht2 t' ht').trans
                ((hother2 eid (Ne.symm hje)).trans (hother1 eid (Ne.symm hje)))
            · intro t' ht'
              obtain ⟨t1, ht1, _, _, _, hother1, _⟩ :=
                (update_task_progress_spec m task_id ej _).2.2 t ht
              obtain ⟨t2, ht2, _, _, _, hother2, _⟩ :=
                (update_task_progress_spec _ task_id ej _).2.2 t1 ht1
              exact (ih _ hne2 t2 ht2 t' ht').trans
                ((hother2 eid (Ne.symm hje)).trans (hother1 eid (Ne.symm hje)))
            · rename_i hout
              exact absurd hout (hnc j)

/-- A missing enricher id ends the run with its progress sub-record
marked failed with the "not found" error (the later slots, which carry
other ids, leave it alone). -/
theorem runLoop_missing_state (env : RunEnv) (L : Nat) (task_id : String)
    (hnc : ∀ j, env.outcome j ≠ EnrichCallOutcome.cancelledDuring) :
    ∀ (l : List (Nat × String)) (m : EnrichmentTaskManager),
      (∀ t, storeGet m task_id = some t → t.status ≠ EnrichmentTaskStatus.cancelled) →
      (l.map Prod.snd).Nodup →
      ∀ i eid, (i, eid) ∈ l → env.registry eid = Option.none →
      ∀ t p, storeGet m task_id = some t → task_id ∈ m.tasks →
        alistGet eid t.progress = some p →
        ∀ t', storeGet (runLoop env L task_id m l).1 task_id = some t' →
          alistGet eid t'.progress =
            some { p with status := "failed",
                          error := some ("Enricher " ++ eid ++ " not found") } := by
  intro l
  induction l with
  | nil =>
      intro m _ _ i eid hmem _
      exact absurd hmem (by simp)
  | cons q rest ih =>
      obtain ⟨j, ej⟩ := q
      intro m hst hnodup i eid hmem hreg t p ht hmemT hp
      rw [List.map_cons, List.nodup_cons] at hnodup
      obtain ⟨hnotin, hnodup2⟩ := hnodup
      unfold runLoop
      dsimp only
      split
      · exfalso
        rename_i hobs
        revert hobs
        cases hm : storeGet m task_id with
        | none =>
            intro hobs
            exact Bool.noConfusion hobs
        | some t0 =>
            intro hobs
            have h2 : (t0.status == EnrichmentTaskStatus.cancelled) = true := hobs
            exact hst t0 hm (of_decide_eq_true h2)
      · split
        · rcases List.mem_cons.mp hmem with heq | hmem2
          · injection heq with h1 h2
            rw [h2] at hp
            rw [h2]
            intro t' ht'
            obtain ⟨t1, ht1, _, _, _, _, hupd⟩ :=
              (update_task_progress_spec m task_id ej _).2.2 t ht
            have hne2 : ∀ q, q ∈ rest → q.2 ≠ ej := by
              intro q hq hqe
              apply hnotin
              rw [← hqe]
              exact List.mem_map.mpr ⟨q, hq, rfl⟩
            rw [runLoop_preserves_progress env L task_id ej hnc rest _ hne2 t1 ht1 t' ht',
              hupd p hp hmemT]
          · have hje : ej ≠ eid := by
              intro h
              apply hnotin
              rw [h]
              exact List.mem_map.mpr ⟨(i, eid), hmem2, rfl⟩
            intro t' ht'
            obtain ⟨t1, ht1, _, _, _, hother, _⟩ :=
              (update_task_progress_spec m task_id ej _).2.2 t ht
            exact ih _ (hst_after_update m task_id ej _ hst) hnodup2 i eid hmem2 hreg
              t1 p ht1
              (by rw [(update_task_progress_spec m task_id ej _).1]; exact hmemT)
              ((hother eid (Ne.symm hje)).trans hp) t' ht'
        · rename_i avail havail
          have hcont : (i, eid) ∈ rest := by
            rcases List.mem_cons.mp hmem with heq | hmem2
            · injection heq with h1 h2
              rw [h2] at hreg
              exact Option.noConfusion (havail.symm.trans hreg)
            · exact hmem2
          have hje : ej ≠ eid := by
            intro h
            apply hnotin
            rw [h]
            exact List.mem_map.mpr ⟨(i, eid), hcont, rfl⟩
          split
          · intro t' ht'
            obtain ⟨t1, ht1, _, _, _, hother, _⟩ :=
              (update_task_progress_spec m task_id ej _).2.2 t ht
            exact ih _ (hst_after_update m task_id ej _ hst) hnodup2 i eid hcont hreg
              t1 p ht1
              (by rw [(update_task_progress_spec m task_id ej _).1]; exact hmemT)
              ((hother eid (Ne.symm hje)).trans hp) t' ht'
          · split
            · intro t' ht'
              obtain ⟨t1, ht1, _, _, _, hother1, _⟩ :=
                (update_task_progress_spec m task_id ej _).2.2 t ht
              obtain ⟨t2, ht2, _, _, _, hother2, _⟩ :=
                (update_task_progress_spec _ task_id ej _).2.2 t1 ht1
              exact ih _ (hst_after_update _ task_id ej _
                  (hst_after_update m task_id ej _ hst)) hnodup2 i eid hcont hreg
                t2 p ht2
                (by rw [(update_task_progress_spec _ task_id ej _).1,
                    (update_task_progress_spec m task_id ej _).1]; exact hmemT)
                ((hother2 eid (Ne.symm hje)).trans
                  ((hother1 eid (Ne.symm hje)).trans hp)) t' ht'
            · intro t' ht'
              obtain ⟨t1, ht1, _, _, _, hother1, _⟩ :=
                (update_task_progress_spec m task_id ej _).2.2 t ht
              obtain ⟨t2, ht2, _, _, _, hother2, _⟩ :=
                (update_task_progress_spec _ task_id ej _).2.2 t1 ht1
              exact ih _ (hst_after_update _ task_id ej _
                  (hst_after_update m task_id ej _ hst)) hnodup2 i eid hcont hreg
                t2 p ht2
                (by rw [(update_task_progress_spec _ task_id ej _).1,
                    (update_task_progress_spec m task_id ej _).1]; exact hmemT)
                ((hother2 eid (Ne.symm hje)).trans
                  ((hother1 eid (Ne.symm hje)).trans hp)) t' ht'
            · rename_i hout
              exact absurd hout (hnc j)

/-- **C8**.  Within one task the requested enrichers run strictly
sequentially and a missing enricher id does not abort the task.  For
the enricher loop of `_run_enrichment_task` over the enumerated
requested ids (no external cancellation, so the task is not in the
`CANCELLED` state and no `CancelledError` is delivered): (1) the loop
never aborts and reaches every slot; (2) for any two slots that both
start an enrich call, the earlier slot's call has *returned* before the
later slot's call *starts* (the two events occur in that order in the
trace), and every started call returns; (3) a requested id missing from
the registry yields a `skipMissing` event for its slot and leaves that
id's progress sub-record failed with the "Enricher ... not found" error
in the final state, while the loop continues past it. -/
theorem enrichers_sequential_and_missing_recorded
    (env : RunEnv) (L : Nat) (task_id : String) (m : EnrichmentTaskManager)
    (ids : List String)
    (hnc : ∀ j, env.outcome j ≠ EnrichCallOutcome.cancelledDuring)
    (hst : ∀ t, storeGet m task_id = some t → t.status ≠ EnrichmentTaskStatus.cancelled) :
    (runLoop env L task_id m ids.enum).2.2 = false ∧
    (∀ q, q ∈ ids.enum →
      RunEvent.cancelCheck q.1 false ∈ (runLoop env L task_id m ids.enum).2.1) ∧
    (∀ i1 e1 i2 e2, i1 < i2 →
      RunEvent.enrichStart i1 e1 ∈ (runLoop env L task_id m ids.enum).2.1 →
      RunEvent.enrichStart i2 e2 ∈ (runLoop env L task_id m ids.enum).2.1 →
      List.Sublist [RunEvent.enrichReturn i1 e1, RunEvent.enrichStart i2 e2]
        (runLoop env L task_id m ids.enum).2.1) ∧
    (∀ i eid, RunEvent.enrichStart i eid ∈ (runLoop env L task_id m ids.enum).2.1 →
      RunEvent.enrichReturn i eid ∈ (runLoop env L task_id m ids.enum).2.1) ∧
    (∀ i eid, (i, eid) ∈ ids.enum → env.registry eid = Option.none →
      RunEvent.skipMissing i eid ∈ (runLoop env L task_id m ids.enum).2.1 ∧
      (ids.Nodup → ∀ t p, storeGet m task_id = some t → task_id ∈ m.tasks →
        alistGet eid t.progress = some p →
        ∀ t', storeGet (runLoop env L task_id m ids.enum).1 task_id = some t' →
          alistGet eid t'.progress =
            some { p with status := "failed",
                          error := some ("Enricher " ++ eid ++ " not found") })) := by
  refine ⟨(runLoop_no_abort env L task_id hnc ids.enum m hst).1,
    (runLoop_no_abort env L task_id hnc ids.enum m hst).2, ?_, ?_, ?_⟩
  · intro i1 e1 i2 e2 h12 h1 h2
    refine runLoop_sequential env L task_id hnc ids.enum m ?_ i1 e1 i2 e2 h12 h1 h2
    rw [List.enum_map_fst]
    exact List.pairwise_lt_range _
  · exact fun i eid h => runLoop_start_return env L task_id hnc ids.enum m i eid h
  · intro i eid hmem hreg
    refine ⟨runLoop_skip_missing env L task_id hnc ids.enum m hst i eid hmem hreg, ?_⟩
    intro hnd t p ht hmemT hp t' ht'
    refine runLoop_missing_state env L task_id hnc ids.enum m hst ?_ i eid hmem hreg
      t p ht hmemT hp t' ht'
    rw [List.enum_map_snd]
    exact hnd

theorem enrichers_sequential_and_missing_recorded_witness :
    RunEvent.skipMissing 0 "geo" ∈ (runLoop c8_env 0 "t1" c8_m ["geo", "cap"].enum).2.1 ∧
    RunEvent.cancelCheck 1 false ∈ (runLoop c8_env 0 "t1" c8_m ["geo", "cap"].enum).2.1 ∧
    (runLoop c8_env 0 "t1" c8_m ["geo", "cap"].enum).2.2 = false := by
  have h := enrichers_sequential_and_missing_recorded c8_env 0 "t1" c8_m ["geo", "cap"]
    (fun j hcd => EnrichCallOutcome.noConfusion hcd)
    (fun t ht => by
      have h2 : (some c8_init : Option EnrichmentTask) = some t := by
        rw [← ht]
        rfl
      injection h2 with h2
      rw [← h2]
      decide)
  exact ⟨(h.2.2.2.2 0 "geo" (by decide) rfl).1, h.2.1 (1, "cap") (by decide), h.1⟩

end SponsorshipSearch
